import Mathlib

/-
Verification of the safe-mutation core of the config-manager repository.

The definitions below are a shallow embedding of `src/electron/ipc-handlers.ts`.
The relevant on-disk state (the two active MCP stores `~/.claude.json` and
`~/.claude/mcp.json`, the disabled archive `mcp-disabled.json`, the backups
directory with its `.meta.json` sidecars, and the agent/skill directories) is
modelled by `FsState`.  JSON objects are modelled as association lists in key
order (`ObjList`); JS `obj[k]` / `obj[k] = v` / `delete obj[k]` become
`objGet` / `objSet` / `objDel`.  A file on disk is `FileData α`: absent,
present-but-unparseable (`malformed`), or a parsed document (`wellFormed`);
a well-formed JSON file whose shape lacks an expected field is represented by
that field being `none`, mirroring the unvalidated `JSON.parse(...) as T` cast.

Every mutating operation is translated to a pure function returning its result
value together with the ordered list of file-system side effects (`PrimOp`) the
TypeScript code performs: one `PrimOp.backupOp` per `createBackup` call, one
`PrimOp.write*` per `writeJsonFileAtomic` call, `PrimOp.rawCopyTo` for the
`fs.copyFileSync` in `restoreBackup`, and `PrimOp.renameAgent`/`renameSkill`
for the `fs.renameSync` moves.  `applyOps` folds these effects over the state,
so crash-in-the-middle behaviour is exactly the state after a prefix of the
operation list.  Timestamps (`Date.now`, `mtime`) are modelled by a logical
clock in the state that strictly increases at each backup creation; error
message strings are reproduced verbatim where the code builds them, and the
messages of caught runtime exceptions are modelled by named constants.
-/

/-! ### Small string helpers (JS `split(':')` and `String.replace(pat, '')`) -/

/-- Split a character list at every colon, as JS `s.split(':')` does:
the result always has at least one part; separators are not kept. -/
def splitColonChars : List Char → List (List Char)
  | [] => [[]]
  | c :: cs =>
    if c = ':' then [] :: splitColonChars cs
    else
      match splitColonChars cs with
      | [] => [[c]]
      | h :: t => (c :: h) :: t

/-- JS `s.split(':')` on strings. -/
def splitColonStr (s : String) : List String :=
  (splitColonChars s.data).map String.mk

/-- JS `parts[parts.length - 1]` on the result of a split (always nonempty). -/
def lastPart (l : List String) : String :=
  (l.getLast?).getD ""

/-- Remove the first occurrence of `pat` from a list, as JS
`s.replace(pat, '')` does for a plain (non-regex) pattern. -/
def stripFirstChars (pat : List Char) : List Char → List Char
  | [] => []
  | c :: cs =>
    if pat.isPrefixOf (c :: cs) then (c :: cs).drop pat.length
    else c :: stripFirstChars pat cs

/-- JS `s.replace(pat, '')` on strings (first occurrence only). -/
def stripFirst (pat s : String) : String :=
  String.mk (stripFirstChars pat.data s.data)

/-! ### JSON objects as ordered association lists -/

/-- A JSON object: ordered key/value pairs (keys unique in any parsed file). -/
abbrev ObjList (α : Type) : Type := List (String × α)

/-- JS `obj[k]` (first matching key). -/
def objGet {α : Type} (k : String) : ObjList α → Option α
  | [] => none
  | (k', v) :: t => if k' = k then some v else objGet k t

/-- JS `obj[k] = v`: update in place if the key exists, else append. -/
def objSet {α : Type} (k : String) (v : α) (l : ObjList α) : ObjList α :=
  if (objGet k l).isSome then
    l.map (fun p => if p.1 = k then (k, v) else p)
  else
    l ++ [(k, v)]

/-- JS `delete obj[k]`. -/
def objDel {α : Type} (k : String) (l : ObjList α) : ObjList α :=
  l.filter (fun p => p.1 ≠ k)

/-! ### Data model (the TypeScript interfaces of ipc-handlers.ts) -/

/-- Interface `MCPConfig`. -/
structure MCPConfig where
  command : Option String := none
  args : Option (List String) := none
  env : Option (ObjList String) := none
  url : Option String := none
  type : Option String := none
deriving DecidableEq, Repr

/-- The `source` field of a `DisabledMCPEntry`: `'user' | 'local' | 'mcp.json'`. -/
inductive MCPSource where
  | user
  | localSrc
  | mcpJsonSrc
deriving DecidableEq, Repr

/-- Metadata `{disabledAt, reason}` of a disabled entry; `disabledAt` (an ISO
timestamp in the code) is modelled by the logical clock value. -/
structure MCPMeta where
  disabledAt : Nat
  reason : String
deriving DecidableEq, Repr

/-- Interface `DisabledMCPEntry`. -/
structure DisabledMCPEntry where
  config : MCPConfig
  source : MCPSource
  projectPath : Option String := none
  metadata : MCPMeta
deriving DecidableEq, Repr

/-- Interface `MCPDisabledFile`; fields are optional because `readJsonFile`
casts without validating the shape. -/
structure MCPDisabledFile where
  version : Option Nat := none
  disabled : Option (ObjList DisabledMCPEntry) := none
deriving DecidableEq, Repr

/-- The per-project part of `ClaudeJsonFile.projects`. -/
structure ProjectConfig where
  mcpServers : Option (ObjList MCPConfig) := none
deriving DecidableEq, Repr

/-- Interface `ClaudeJsonFile` (unknown extra keys are not modelled; the code
carries them through read-modify-write untouched). -/
structure ClaudeJsonFile where
  mcpServers : Option (ObjList MCPConfig) := none
  projects : Option (ObjList ProjectConfig) := none
deriving DecidableEq, Repr

/-- Interface `MCPJsonFile`. -/
structure MCPJsonFile where
  mcpServers : Option (ObjList MCPConfig) := none
deriving DecidableEq, Repr

/-- Content of one path on disk: absent, present but not valid JSON, or a
parsed document of the expected shape. -/
inductive FileData (α : Type) where
  | absent
  | malformed (raw : String)
  | wellFormed (v : α)
deriving DecidableEq, Repr

/-- Function `readJsonFile<T>(filePath, defaultValue)`: returns the default
when the file is absent, and — because the whole body is wrapped in
`try {...} catch { return defaultValue; }` — also when it is malformed. -/
def readJsonFileD {α : Type} (fd : FileData α) (defaultValue : α) : α :=
  match fd with
  | .absent => defaultValue
  | .malformed _ => defaultValue
  | .wellFormed v => v

/-! ### File-system state -/

/-- The JSON files the MCP operations touch, identified by their constant
paths `CLAUDE_JSON_PATH`, `MCP_JSON_PATH`, `MCP_DISABLED_PATH`. -/
inductive KnownPath where
  | claudeJsonP
  | mcpJsonP
  | mcpDisabledP
deriving DecidableEq, Repr

/-- The `path.basename` of a known path, used to name backup files. -/
def KnownPath.baseName : KnownPath → String
  | .claudeJsonP => ".claude.json"
  | .mcpJsonP => "mcp.json"
  | .mcpDisabledP => "mcp-disabled.json"

/-- Raw bytes of a file, as copied verbatim into a backup. -/
inductive RawBytes where
  | claudeDoc (d : ClaudeJsonFile)
  | mcpDoc (d : MCPJsonFile)
  | disabledDoc (d : MCPDisabledFile)
  | textRaw (s : String)
deriving DecidableEq, Repr

/-- One backup copy in `BACKUPS_DIR`, named `<base>.<timestamp>`; the logical
clock value stands for both the name timestamp and the file's mtime. -/
structure BackupFile where
  base : String
  stamp : Nat
  bytes : RawBytes
deriving DecidableEq, Repr

/-- One `.meta.json` sidecar `{originalPath, timestamp, description}`. -/
structure BackupMeta where
  base : String
  stamp : Nat
  originalPath : KnownPath
  createdAt : Nat
  description : String
deriving DecidableEq, Repr

/-- The file-system state the managed operations read and write.  Agent and
skill directories are modelled as lists of file/folder names (their content is
irrelevant to the claims under verification). -/
structure FsState where
  claudeFile : FileData ClaudeJsonFile
  mcpFile : FileData MCPJsonFile
  disabledFile : FileData MCPDisabledFile
  backups : List BackupFile
  backupMetas : List BackupMeta
  agentsActive : List String
  agentsDisabled : List String
  skillsActive : List String
  skillsDisabled : List String
  clock : Nat
deriving DecidableEq, Repr

/-- Parsing the raw bytes as a `ClaudeJsonFile` (what `readJsonFile` would see
after the bytes are copied over `~/.claude.json`): valid JSON of another
document shape parses fine and supplies whichever fields it happens to share. -/
def RawBytes.asClaude : RawBytes → FileData ClaudeJsonFile
  | .claudeDoc d => .wellFormed d
  | .mcpDoc d => .wellFormed { mcpServers := d.mcpServers }
  | .disabledDoc _ => .wellFormed {}
  | .textRaw s => .malformed s

/-- Parsing raw bytes as an `MCPJsonFile`. -/
def RawBytes.asMcp : RawBytes → FileData MCPJsonFile
  | .claudeDoc d => .wellFormed { mcpServers := d.mcpServers }
  | .mcpDoc d => .wellFormed d
  | .disabledDoc _ => .wellFormed {}
  | .textRaw s => .malformed s

/-- Parsing raw bytes as an `MCPDisabledFile`. -/
def RawBytes.asDisabled : RawBytes → FileData MCPDisabledFile
  | .claudeDoc _ => .wellFormed {}
  | .mcpDoc _ => .wellFormed {}
  | .disabledDoc d => .wellFormed d
  | .textRaw s => .malformed s

/-- Current bytes at a known path, `none` when the file is absent. -/
def bytesAt (p : KnownPath) (s : FsState) : Option RawBytes :=
  match p with
  | .claudeJsonP =>
    match s.claudeFile with
    | .absent => none
    | .malformed r => some (.textRaw r)
    | .wellFormed d => some (.claudeDoc d)
  | .mcpJsonP =>
    match s.mcpFile with
    | .absent => none
    | .malformed r => some (.textRaw r)
    | .wellFormed d => some (.mcpDoc d)
  | .mcpDisabledP =>
    match s.disabledFile with
    | .absent => none
    | .malformed r => some (.textRaw r)
    | .wellFormed d => some (.disabledDoc d)

/-- Whether the backup's bytes survive `JSON.parse` (used by `restoreBackup`'s
validation step). -/
def RawBytes.parses : RawBytes → Bool
  | .textRaw _ => false
  | _ => true

/-! ### Backup creation and retention (createBackup / cleanupOldBackups) -/

/-- Constant `MAX_BACKUPS`. -/
def MAX_BACKUPS : Nat := 10

/-- Stable insertion (by a JS-style comparator) keeping an element after all
earlier elements it does not strictly precede; `sortStable` below therefore
models the stable `Array.prototype.sort`. -/
def insComparator {α : Type} (cmp : α → α → Ordering) (x : α) : List α → List α
  | [] => [x]
  | y :: ys => if cmp x y = .lt then x :: y :: ys else y :: insComparator cmp x ys

/-- Stable sort by a JS-style comparator. -/
def sortStable {α : Type} (cmp : α → α → Ordering) (l : List α) : List α :=
  l.foldl (fun acc x => insComparator cmp x acc) []

/-- Comparator `(a, b) => b.mtime - a.mtime` of `cleanupOldBackups`
(newest backup first). -/
def cmpBackupDesc (a b : BackupFile) : Ordering :=
  compare b.stamp a.stamp

/-- The `backupFiles` list of `cleanupOldBackups`: the backups whose name
starts with `baseFileName + '.'` and is not a sidecar (structurally: whose
base is `baseFileName`), sorted newest first by mtime. -/
def backupsForBase (baseFileName : String) (s : FsState) : List BackupFile :=
  sortStable cmpBackupDesc (s.backups.filter (fun e => e.base = baseFileName))

/-- Function `cleanupOldBackups(baseFileName)`: delete every backup for this
base name past the `MAX_BACKUPS` newest, together with its sidecar. -/
def cleanupOldBackups (baseFileName : String) (s : FsState) : FsState :=
  if (backupsForBase baseFileName s).length > MAX_BACKUPS then
    { s with
      backups := s.backups.filter (fun e =>
        ¬ ((backupsForBase baseFileName s).drop MAX_BACKUPS).any
            (fun d => d.base = e.base ∧ d.stamp = e.stamp)),
      backupMetas := s.backupMetas.filter (fun m =>
        ¬ ((backupsForBase baseFileName s).drop MAX_BACKUPS).any
            (fun d => d.base = m.base ∧ d.stamp = m.stamp)) }
  else s

/-- Function `createBackup(filePath, description)` as a state transformer:
returns without effect when the file does not exist; otherwise copies the
current bytes to `<base>.<timestamp>`, writes the metadata sidecar, prunes old
backups for the same base name, and advances the clock (distinct backup
creations get strictly increasing timestamps). -/
def createBackup (p : KnownPath) (description : String) (s : FsState) : FsState :=
  match bytesAt p s with
  | none => s
  | some b =>
    cleanupOldBackups p.baseName
      { s with
        backups := s.backups ++ [⟨p.baseName, s.clock, b⟩],
        backupMetas := s.backupMetas ++ [⟨p.baseName, s.clock, p, s.clock, description⟩],
        clock := s.clock + 1 }

/-! ### Primitive file-system effects and their semantics -/

/-- One primitive file-system side effect of a mutating operation, in the
order the TypeScript code performs them. -/
inductive PrimOp where
  | backupOp (p : KnownPath) (description : String)
  | writeClaude (d : ClaudeJsonFile)
  | writeMcp (d : MCPJsonFile)
  | writeDisabled (d : MCPDisabledFile)
  | rawCopyTo (p : KnownPath) (b : RawBytes)
  | renameAgent (filename : String) (toDisabled : Bool)
  | renameSkill (name : String) (toDisabled : Bool)
deriving DecidableEq, Repr

/-- Whether a primitive effect is a `writeJsonFileAtomic` call (the temp-file
plus rename path). -/
def PrimOp.isAtomicWrite : PrimOp → Bool
  | .writeClaude _ => true
  | .writeMcp _ => true
  | .writeDisabled _ => true
  | _ => false

/-- Whether a primitive effect is a `createBackup` call. -/
def PrimOp.isBackupOp : PrimOp → Bool
  | .backupOp _ _ => true
  | _ => false

/-- Whether a primitive effect is the raw `fs.copyFileSync` overwrite used by
`restoreBackup`. -/
def PrimOp.isRawCopy : PrimOp → Bool
  | .rawCopyTo _ _ => true
  | _ => false

/-- The active-source file `disableMcp` snapshots for each source kind. -/
def disableBackupPath : MCPSource → KnownPath
  | .user => .claudeJsonP
  | .localSrc => .claudeJsonP
  | .mcpJsonSrc => .mcpJsonP

/-- Semantics of one primitive effect. -/
def applyPrim (s : FsState) : PrimOp → FsState
  | .backupOp p d => createBackup p d s
  | .writeClaude d => { s with claudeFile := .wellFormed d }
  | .writeMcp d => { s with mcpFile := .wellFormed d }
  | .writeDisabled d => { s with disabledFile := .wellFormed d }
  | .rawCopyTo p b =>
    match p with
    | .claudeJsonP => { s with claudeFile := b.asClaude }
    | .mcpJsonP => { s with mcpFile := b.asMcp }
    | .mcpDisabledP => { s with disabledFile := b.asDisabled }
  | .renameAgent fn toDisabled =>
    if toDisabled then
      { s with agentsActive := s.agentsActive.filter (fun f => f ≠ fn),
               agentsDisabled := (s.agentsDisabled.filter (fun f => f ≠ fn)) ++ [fn] }
    else
      { s with agentsDisabled := s.agentsDisabled.filter (fun f => f ≠ fn),
               agentsActive := (s.agentsActive.filter (fun f => f ≠ fn)) ++ [fn] }
  | .renameSkill nm toDisabled =>
    if toDisabled then
      { s with skillsActive := s.skillsActive.filter (fun f => f ≠ nm),
               skillsDisabled := (s.skillsDisabled.filter (fun f => f ≠ nm)) ++ [nm] }
    else
      { s with skillsDisabled := s.skillsDisabled.filter (fun f => f ≠ nm),
               skillsActive := (s.skillsActive.filter (fun f => f ≠ nm)) ++ [nm] }

/-- Run a list of primitive effects left to right; the state after a crash in
the middle of an operation is `applyOps s (ops.take k)`. -/
def applyOps (s : FsState) (ops : List PrimOp) : FsState :=
  ops.foldl applyPrim s

/-- Result record `{ success: boolean; error?: string }`. -/
structure OpResult where
  success : Bool
  error : Option String := none
deriving DecidableEq, Repr

/-- Message of the runtime `TypeError` raised when the code indexes into a
field that the unvalidated parsed document does not have (caught by the
surrounding `try`/`catch` and returned as the error string). -/
def typeErrorMsg : String := "TypeError: cannot index undefined"

/-- Message of the `SyntaxError` thrown by `JSON.parse` on invalid input
(caught and surfaced as the error string). -/
def jsonParseErrorMsg : String := "Unexpected token in JSON"

/-! ### disableMcp (ipc-handlers.ts lines 365-465) -/

/-- Function `disableMcp(name, source, projectPath)`: reads the full config
from the source file, backs the source file up, archives the payload first,
then removes it from the source and writes the source back atomically. -/
def disableMcp (name : String) (source : MCPSource) (projectPath : Option String)
    (s : FsState) : OpResult × List PrimOp :=
  match source with
  | .user =>
    let claudeJson := readJsonFileD s.claudeFile {}
    match objGet name (claudeJson.mcpServers.getD []) with
    | none => (⟨false, some ("MCP \"" ++ name ++ "\" not found in user config")⟩, [])
    | some config =>
      let bk : PrimOp := .backupOp .claudeJsonP ("Before disabling MCP: " ++ name)
      let disabledJson := readJsonFileD s.disabledFile { version := some 1, disabled := some [] }
      match disabledJson.disabled with
      | none => (⟨false, some typeErrorMsg⟩, [bk])
      | some dl =>
        let entry : DisabledMCPEntry :=
          { config := config, source := .user, metadata := ⟨s.clock, "user"⟩ }
        let dj' := { disabledJson with disabled := some (objSet ("user:" ++ name) entry dl) }
        let cj' := { claudeJson with
          mcpServers := some (objDel name (claudeJson.mcpServers.getD [])) }
        (⟨true, none⟩, [bk, .writeDisabled dj', .writeClaude cj'])
  | .localSrc =>
    match projectPath with
    | none => (⟨false, some "Invalid source or missing project path"⟩, [])
    | some pp =>
      let claudeJson := readJsonFileD s.claudeFile {}
      let pcOpt := objGet pp (claudeJson.projects.getD [])
      match objGet name ((pcOpt.getD {}).mcpServers.getD []) with
      | none => (⟨false, some ("MCP \"" ++ name ++ "\" not found in local config for project")⟩, [])
      | some config =>
        let bk : PrimOp := .backupOp .claudeJsonP ("Before disabling local MCP: " ++ name)
        let disabledJson := readJsonFileD s.disabledFile { version := some 1, disabled := some [] }
        match disabledJson.disabled with
        | none => (⟨false, some typeErrorMsg⟩, [bk])
        | some dl =>
          let entry : DisabledMCPEntry :=
            { config := config, source := .localSrc, projectPath := some pp,
              metadata := ⟨s.clock, "user"⟩ }
          let dj' := { disabledJson with
            disabled := some (objSet ("local:" ++ pp ++ ":" ++ name) entry dl) }
          let pc := pcOpt.getD {}
          let pc' := { pc with mcpServers := some (objDel name (pc.mcpServers.getD [])) }
          let cj' := { claudeJson with
            projects := some (objSet pp pc' (claudeJson.projects.getD [])) }
          (⟨true, none⟩, [bk, .writeDisabled dj', .writeClaude cj'])
  | .mcpJsonSrc =>
    let mcpJson := readJsonFileD s.mcpFile { mcpServers := some [] }
    match objGet name (mcpJson.mcpServers.getD []) with
    | none => (⟨false, some ("MCP \"" ++ name ++ "\" not found in mcp.json")⟩, [])
    | some config =>
      let bk : PrimOp := .backupOp .mcpJsonP ("Before disabling MCP: " ++ name)
      let disabledJson := readJsonFileD s.disabledFile { version := some 1, disabled := some [] }
      match disabledJson.disabled with
      | none => (⟨false, some typeErrorMsg⟩, [bk])
      | some dl =>
        let entry : DisabledMCPEntry :=
          { config := config, source := .mcpJsonSrc, metadata := ⟨s.clock, "user"⟩ }
        let dj' := { disabledJson with
          disabled := some (objSet ("mcpjson:" ++ name) entry dl) }
        let mj' := { mcpJson with
          mcpServers := some (objDel name (mcpJson.mcpServers.getD [])) }
        (⟨true, none⟩, [bk, .writeDisabled dj', .writeMcp mj'])

/-! ### enableMcp (ipc-handlers.ts lines 468-574) -/

/-- The conflict error message built at the three `already exists` checks. -/
def enableConflictMsg (src : MCPSource) (name : String) : String :=
  match src with
  | .user => "MCP \"" ++ name ++ "\" already exists in user config"
  | .localSrc => "MCP \"" ++ name ++ "\" already exists in local config"
  | .mcpJsonSrc => "MCP \"" ++ name ++ "\" already exists in mcp.json"

/-- Function `enableMcp(disabledKey)`: looks the entry up in the archive,
derives the destination from the entry's stored source, rejects on conflict
without touching any file, otherwise backs up the destination file, restores
the config into it first, and only then removes the archive entry. -/
def enableMcp (disabledKey : String) (s : FsState) : OpResult × List PrimOp :=
  let disabledJson := readJsonFileD s.disabledFile { version := some 1, disabled := some [] }
  match disabledJson.disabled with
  | none => (⟨false, some typeErrorMsg⟩, [])
  | some dl =>
    match objGet disabledKey dl with
    | none => (⟨false, some ("Disabled MCP \"" ++ disabledKey ++ "\" not found")⟩, [])
    | some entry =>
      match entry.source with
      | .user =>
        let claudeJson := readJsonFileD s.claudeFile {}
        let servers := claudeJson.mcpServers.getD []
        let name := stripFirst "user:" disabledKey
        if (objGet name servers).isSome then
          (⟨false, some (enableConflictMsg .user name)⟩, [])
        else
          let cj' := { claudeJson with mcpServers := some (objSet name entry.config servers) }
          let dj' := { disabledJson with disabled := some (objDel disabledKey dl) }
          (⟨true, none⟩,
            [.backupOp .claudeJsonP ("Before enabling MCP: " ++ name),
             .writeClaude cj', .writeDisabled dj'])
      | .localSrc =>
        match entry.projectPath with
        | none => (⟨false, some "Invalid source in disabled entry"⟩, [])
        | some pp =>
          let claudeJson := readJsonFileD s.claudeFile {}
          let projects := claudeJson.projects.getD []
          let pc := (objGet pp projects).getD {}
          let servers := pc.mcpServers.getD []
          let name := lastPart (splitColonStr disabledKey)
          if (objGet name servers).isSome then
            (⟨false, some (enableConflictMsg .localSrc name)⟩, [])
          else
            let pc' := { pc with mcpServers := some (objSet name entry.config servers) }
            let cj' := { claudeJson with projects := some (objSet pp pc' projects) }
            let dj' := { disabledJson with disabled := some (objDel disabledKey dl) }
            (⟨true, none⟩,
              [.backupOp .claudeJsonP ("Before enabling local MCP: " ++ name),
               .writeClaude cj', .writeDisabled dj'])
      | .mcpJsonSrc =>
        let mcpJson := readJsonFileD s.mcpFile { mcpServers := some [] }
        let name := stripFirst "mcpjson:" disabledKey
        match mcpJson.mcpServers with
        | none => (⟨false, some typeErrorMsg⟩, [])
        | some servers =>
          if (objGet name servers).isSome then
            (⟨false, some (enableConflictMsg .mcpJsonSrc name)⟩, [])
          else
            let mj' := { mcpJson with mcpServers := some (objSet name entry.config servers) }
            let dj' := { disabledJson with disabled := some (objDel disabledKey dl) }
            (⟨true, none⟩,
              [.backupOp .mcpJsonP ("Before enabling MCP: " ++ name),
               .writeMcp mj', .writeDisabled dj'])

/-! ### loadMCPs (ipc-handlers.ts lines 265-362) -/

/-- The `source` field of a loaded `MCPServer`:
`'user' | 'local' | 'mcp.json' | 'disabled'`. -/
inductive LoadSource where
  | user
  | localS
  | mcpJsonS
  | disabledS
deriving DecidableEq, Repr

/-- Interface `MCPServer` as produced by `loadMCPs`.  The `status` field is
always `'unknown'` (`getMcpStatuses` returns an empty map) and `toolInfo` is a
pure lookup in the constant `KNOWN_MCP_TOOL_COUNTS` table keyed by the name;
both are display-only derived data and are omitted from the model. -/
structure MCPServer where
  name : String
  config : MCPConfig
  enabled : Bool
  source : LoadSource
  projectPath : Option String := none
  disabledKey : Option String := none
  metadata : Option MCPMeta := none
deriving DecidableEq, Repr

/-- Rendering of a `DisabledMCPEntry.source` in a template string. -/
def MCPSource.render : MCPSource → String
  | .user => "user"
  | .localSrc => "local"
  | .mcpJsonSrc => "mcp.json"

/-- The map key `loadMCPs` uses for a disabled entry; when `projectPath` is
absent the template string renders the JS `undefined` value. -/
def disabledMapKey (k : String) (e : DisabledMCPEntry) : String :=
  let displayName := lastPart (splitColonStr k)
  match e.source with
  | .localSrc => "disabled:local:" ++ (e.projectPath.getD "undefined") ++ ":" ++ displayName
  | src => "disabled:" ++ src.render ++ ":" ++ displayName

/-- Entry built in step 1 of `loadMCPs` (user-level `~/.claude.json`). -/
def mkUserEntry (n : String) (c : MCPConfig) : MCPServer :=
  { name := n, config := c, enabled := true, source := .user }

/-- Entry built in step 2 of `loadMCPs` (project-level `~/.claude.json`). -/
def mkLocalEntry (pp n : String) (c : MCPConfig) : MCPServer :=
  { name := n, config := c, enabled := true, source := .localS, projectPath := some pp }

/-- Entry built in step 3 of `loadMCPs` (`~/.claude/mcp.json`). -/
def mkMcpJsonEntry (n : String) (c : MCPConfig) : MCPServer :=
  { name := n, config := c, enabled := true, source := .mcpJsonS }

/-- Entry built in step 4 of `loadMCPs` (the disabled archive). -/
def mkDisabledEntry (k : String) (e : DisabledMCPEntry) : MCPServer :=
  { name := lastPart (splitColonStr k), config := e.config, enabled := false,
    source := .disabledS, projectPath := e.projectPath, disabledKey := some k,
    metadata := some e.metadata }

/-- The `sourcePriority` tie-break of the final sort.  In the code the map
assigns `user` priority `0`, but the expression `sourcePriority[a.source] || 99`
turns the falsy `0` into `99`, so `user` actually sorts last among equal
names. -/
def sourcePriorityJS : LoadSource → Nat
  | .user => 99
  | .localS => 1
  | .mcpJsonS => 2
  | .disabledS => 3

/-- The sort comparator of `loadMCPs`: `localeCompare` on names (modelled as
lexicographic string comparison), then the source priority. -/
def cmpMCP (a b : MCPServer) : Ordering :=
  match compare a.name b.name with
  | .eq => compare (sourcePriorityJS a.source) (sourcePriorityJS b.source)
  | o => o

/-- Step 1 of `loadMCPs`: user-level servers into the map under `user:name`. -/
def loadStepUser (l : ObjList MCPConfig) (m : ObjList MCPServer) : ObjList MCPServer :=
  l.foldl (fun m nc => objSet ("user:" ++ nc.1) (mkUserEntry nc.1 nc.2) m) m

/-- Step 2 of `loadMCPs`: project-level servers under `local:path:name`. -/
def loadStepLocal (pj : ObjList ProjectConfig) (m : ObjList MCPServer) : ObjList MCPServer :=
  pj.foldl (fun m pppc =>
    (pppc.2.mcpServers.getD []).foldl
      (fun m nc => objSet ("local:" ++ pppc.1 ++ ":" ++ nc.1)
        (mkLocalEntry pppc.1 nc.1 nc.2) m) m) m

/-- Step 3 of `loadMCPs`: `mcp.json` servers under `mcpjson:name`, skipped
when the key `user:name` is already in the map (dedup by name only). -/
def loadStepMcpJson (l : ObjList MCPConfig) (m : ObjList MCPServer) : ObjList MCPServer :=
  l.foldl (fun m nc =>
    if (objGet ("user:" ++ nc.1) m).isSome then m
    else objSet ("mcpjson:" ++ nc.1) (mkMcpJsonEntry nc.1 nc.2) m) m

/-- Step 4 of `loadMCPs`: disabled entries. -/
def loadStepDisabled (dl : ObjList DisabledMCPEntry) (m : ObjList MCPServer) : ObjList MCPServer :=
  dl.foldl (fun m ke => objSet (disabledMapKey ke.1 ke.2) (mkDisabledEntry ke.1 ke.2) m) m

/-- Function `loadMCPs()`: merge the four sources into one map keyed by
provenance, then sort by name with the source-priority tie-break.  The
function performs reads only — no write, rename or unlink call occurs in its
body — so its embedding takes the state and returns only the list. -/
def loadMCPs (s : FsState) : List MCPServer :=
  let claudeJson := readJsonFileD s.claudeFile {}
  let mcpJson := readJsonFileD s.mcpFile { mcpServers := some [] }
  let disabledJson := readJsonFileD s.disabledFile { version := some 1, disabled := some [] }
  let m1 := loadStepUser (claudeJson.mcpServers.getD []) []
  let m2 := loadStepLocal (claudeJson.projects.getD []) m1
  let m3 := loadStepMcpJson (mcpJson.mcpServers.getD []) m2
  let m4 := loadStepDisabled (disabledJson.disabled.getD []) m3
  sortStable cmpMCP (m4.map Prod.snd)

/-- The merged-view load in the uniform result-and-effects signature; its
effect list is empty because the source function only reads. -/
def loadMCPsRun (s : FsState) : List MCPServer × List PrimOp :=
  (loadMCPs s, [])

/-! ### toggleAllMcps (ipc-handlers.ts lines 604-654) -/

/-- Result record `{ success, error?, requiresRestart? }`. -/
structure ToggleAllResult where
  success : Bool
  error : Option String := none
  requiresRestart : Option Bool := none
deriving DecidableEq, Repr

/-- The key search of the enable-all branch:
`Object.keys(disabled).find(k => k.startsWith('user:') && k.endsWith(':'+name) || k === 'user:'+name)`. -/
def findUserKeyFor (name : String) (dl : ObjList DisabledMCPEntry) : Option String :=
  (dl.map Prod.fst).find? (fun k =>
    ("user:".data.isPrefixOf k.data && (":" ++ name).data.isSuffixOf k.data)
      || decide (k = "user:" ++ name))

/-- The sequential loop of `toggleAllMcps`: each iteration re-reads the
disabled file from the current state, applies the single-item transition, and
aborts at the first failure with an error naming that item. -/
def toggleAllGo (enabled : Bool) : List MCPServer → FsState → ToggleAllResult × FsState
  | [], s => (⟨true, none, some true⟩, s)
  | mcp :: rest, s =>
    if enabled && decide (mcp.source = .disabledS) then
      let disabledJson := readJsonFileD s.disabledFile { version := some 1, disabled := some [] }
      match disabledJson.disabled with
      | none => (⟨false, some typeErrorMsg, none⟩, s)
      | some dl =>
        match findUserKeyFor mcp.name dl with
        | some key =>
          let r := enableMcp key s
          let s' := applyOps s r.2
          if r.1.success then toggleAllGo enabled rest s'
          else (⟨false, some ("Failed to toggle " ++ mcp.name ++ ": " ++ (r.1.error.getD "undefined")), none⟩, s')
        | none => toggleAllGo enabled rest s
    else if !enabled && decide (mcp.source = .user) then
      let r := disableMcp mcp.name .user none s
      let s' := applyOps s r.2
      if r.1.success then toggleAllGo enabled rest s'
      else (⟨false, some ("Failed to toggle " ++ mcp.name ++ ": " ++ (r.1.error.getD "undefined")), none⟩, s')
    else toggleAllGo enabled rest s

/-- Function `toggleAllMcps(enabled)`: for safety only user-level MCPs are
disabled and only disabled entries with a `user:`-matching key are enabled;
the loop is not transactional across items. -/
def toggleAllMcps (enabled : Bool) (s : FsState) : ToggleAllResult × FsState :=
  let mcps := loadMCPs s
  let userMcps := mcps.filter (fun mcp =>
    (enabled && decide (mcp.source = .disabledS)) || (!enabled && decide (mcp.source = .user)))
  if userMcps.isEmpty then (⟨true, none, some false⟩, s)
  else toggleAllGo enabled userMcps s

/-! ### deleteMcp (ipc-handlers.ts lines 863-934) -/

/-- Function `deleteMcp(name, source, projectPath, disabledKey)`: permanent
removal from the archive or from an active store, with a backup of the
containing file created after the existence check and before the write. -/
def deleteMcp (name : String) (source : LoadSource) (projectPath : Option String)
    (disabledKey : Option String) (s : FsState) : OpResult × List PrimOp :=
  match source, disabledKey with
  | .disabledS, some dk =>
    let disabledJson := readJsonFileD s.disabledFile { version := some 1, disabled := some [] }
    match disabledJson.disabled with
    | none => (⟨false, some typeErrorMsg⟩, [])
    | some dl =>
      if (objGet dk dl).isSome then
        let dj' := { disabledJson with disabled := some (objDel dk dl) }
        (⟨true, none⟩,
          [.backupOp .mcpDisabledP ("Before deleting disabled MCP: " ++ name),
           .writeDisabled dj'])
      else (⟨false, some ("Disabled MCP \"" ++ dk ++ "\" not found")⟩, [])
  | source, _ =>
    match source with
    | .user =>
      let claudeJson := readJsonFileD s.claudeFile {}
      match objGet name (claudeJson.mcpServers.getD []) with
      | none => (⟨false, some ("MCP \"" ++ name ++ "\" not found in user config")⟩, [])
      | some _ =>
        let cj' := { claudeJson with
          mcpServers := some (objDel name (claudeJson.mcpServers.getD [])) }
        (⟨true, none⟩,
          [.backupOp .claudeJsonP ("Before deleting MCP: " ++ name), .writeClaude cj'])
    | .localS =>
      match projectPath with
      | none => (⟨false, some "Invalid source for delete operation"⟩, [])
      | some pp =>
        let claudeJson := readJsonFileD s.claudeFile {}
        let pcOpt := objGet pp (claudeJson.projects.getD [])
        match objGet name ((pcOpt.getD {}).mcpServers.getD []) with
        | none => (⟨false, some ("MCP \"" ++ name ++ "\" not found in local config")⟩, [])
        | some _ =>
          let pc := pcOpt.getD {}
          let pc' := { pc with mcpServers := some (objDel name (pc.mcpServers.getD [])) }
          let cj' := { claudeJson with
            projects := some (objSet pp pc' (claudeJson.projects.getD [])) }
          (⟨true, none⟩,
            [.backupOp .claudeJsonP ("Before deleting local MCP: " ++ name), .writeClaude cj'])
    | .mcpJsonS =>
      let mcpJson := readJsonFileD s.mcpFile { mcpServers := some [] }
      match objGet name (mcpJson.mcpServers.getD []) with
      | none => (⟨false, some ("MCP \"" ++ name ++ "\" not found in mcp.json")⟩, [])
      | some _ =>
        let mj' := { mcpJson with
          mcpServers := some (objDel name (mcpJson.mcpServers.getD [])) }
        (⟨true, none⟩,
          [.backupOp .mcpJsonP ("Before deleting MCP: " ++ name), .writeMcp mj'])
    | .disabledS => (⟨false, some "Invalid source for delete operation"⟩, [])

/-! ### restoreBackup (ipc-handlers.ts lines 694-726) and the toggles -/

/-- Function `restoreBackup(backupPath)`, the backup identified by its base
name and timestamp: checks the copy and its sidecar exist, validates the
backup bytes parse as JSON, snapshots the current live file, then overwrites
the live path with `fs.copyFileSync` (a raw copy, not `writeJsonFileAtomic`). -/
def restoreBackup (base : String) (stamp : Nat) (s : FsState) : OpResult × List PrimOp :=
  match s.backups.find? (fun e => decide (e.base = base) && decide (e.stamp = stamp)) with
  | none => (⟨false, some "Backup file not found"⟩, [])
  | some bf =>
    match s.backupMetas.find? (fun m => decide (m.base = base) && decide (m.stamp = stamp)) with
    | none => (⟨false, some "Backup metadata not found"⟩, [])
    | some meta =>
      if bf.bytes.parses then
        (⟨true, none⟩,
          [.backupOp meta.originalPath ("Before restoring backup from " ++ toString meta.createdAt),
           .rawCopyTo meta.originalPath bf.bytes])
      else (⟨false, some jsonParseErrorMsg⟩, [])

/-- Path constants rendered in error messages (the home directory is
environment-dependent and kept symbolic). -/
def AGENTS_DIR : String := "~/.claude/agents"

/-- The disabled agents directory. -/
def AGENTS_DISABLED_DIR : String := "~/.claude/.config-manager/agents-disabled"

/-- Function `toggleAgent(filename, enabled)` (ipc-handlers.ts lines 968-988):
moves the file between the active and disabled agent directories with a bare
`fs.renameSync`; no backup is created. -/
def toggleAgent (filename : String) (enabled : Bool) (s : FsState) : OpResult × List PrimOp :=
  let srcList := if enabled then s.agentsDisabled else s.agentsActive
  let srcDir := if enabled then AGENTS_DISABLED_DIR else AGENTS_DIR
  if filename ∈ srcList then (⟨true, none⟩, [.renameAgent filename (!enabled)])
  else (⟨false, some ("Agent file not found: " ++ srcDir ++ "/" ++ filename)⟩, [])

/-- Function `toggleSkill(name, enabled)` (ipc-handlers.ts lines 1247-1268):
moves the skill folder between the active and disabled skill directories with
a bare `fs.renameSync`; no backup is created. -/
def toggleSkill (name : String) (enabled : Bool) (s : FsState) : OpResult × List PrimOp :=
  let srcList := if enabled then s.skillsDisabled else s.skillsActive
  if name ∈ srcList then (⟨true, none⟩, [.renameSkill name (!enabled)])
  else (⟨false, some ("Skill folder not found: " ++ name)⟩, [])

/-! ### Derived predicates used by the specification statements -/

/-- A reference to one active slot class: user level, project local, or the
supplementary `mcp.json`. -/
inductive ActiveRef where
  | userR
  | localR (pp : String)
  | mcpR
deriving DecidableEq, Repr

/-- The `source` argument `disableMcp` expects for this reference. -/
def ActiveRef.src : ActiveRef → MCPSource
  | .userR => .user
  | .localR _ => .localSrc
  | .mcpR => .mcpJsonSrc

/-- The `projectPath` argument `disableMcp` expects for this reference. -/
def ActiveRef.pp : ActiveRef → Option String
  | .localR p => some p
  | _ => none

/-- The active JSON file this reference lives in. -/
def ActiveRef.path : ActiveRef → KnownPath
  | .mcpR => .mcpJsonP
  | _ => .claudeJsonP

/-- The composite archive key `disableMcp` files the payload under. -/
def archiveKey : ActiveRef → String → String
  | .userR, n => "user:" ++ n
  | .localR pp, n => "local:" ++ pp ++ ":" ++ n
  | .mcpR, n => "mcpjson:" ++ n

/-- Lookup of a name in one active slot class, through the same defaulted
reads the code performs. -/
def activeLookup (r : ActiveRef) (n : String) (s : FsState) : Option MCPConfig :=
  match r with
  | .userR => objGet n ((readJsonFileD s.claudeFile {}).mcpServers.getD [])
  | .localR pp =>
    match objGet pp ((readJsonFileD s.claudeFile {}).projects.getD []) with
    | none => none
    | some pc => objGet n (pc.mcpServers.getD [])
  | .mcpR => objGet n ((readJsonFileD s.mcpFile { mcpServers := some [] }).mcpServers.getD [])

/-- Whether the named item is live in the given active slot class. -/
def inActive (s : FsState) (r : ActiveRef) (n : String) : Bool :=
  (activeLookup r n s).isSome

/-- The archive object as the code reads it (`none` when the parsed disabled
file has no `disabled` field). -/
def disabledObj (s : FsState) : Option (ObjList DisabledMCPEntry) :=
  (readJsonFileD s.disabledFile { version := some 1, disabled := some [] }).disabled

/-- Lookup of an archive key in the disabled archive. -/
def archiveLookup (k : String) (s : FsState) : Option DisabledMCPEntry :=
  match disabledObj s with
  | none => none
  | some dl => objGet k dl

/-- Whether an entry is archived under the given key. -/
def inArchive (s : FsState) (k : String) : Bool :=
  (archiveLookup k s).isSome

/-- The destination slot and name `enableMcp` computes for an archive entry
(`none` when the entry is local-scoped without a project path). -/
def enableDest (key : String) (e : DisabledMCPEntry) : Option (ActiveRef × String) :=
  match e.source with
  | .user => some (.userR, stripFirst "user:" key)
  | .localSrc =>
    match e.projectPath with
    | some pp => some (.localR pp, lastPart (splitColonStr key))
    | none => none
  | .mcpJsonSrc => some (.mcpR, stripFirst "mcpjson:" key)

/-- Extensional equality of the `~/.claude.json` store (all user-level and
all project-level lookups agree): equality of content modulo key order. -/
def claudeEquiv (s₁ s₂ : FsState) : Prop :=
  (∀ n, activeLookup .userR n s₁ = activeLookup .userR n s₂) ∧
  (∀ pp n, activeLookup (.localR pp) n s₁ = activeLookup (.localR pp) n s₂)

/-- Extensional equality of the `mcp.json` store. -/
def mcpEquiv (s₁ s₂ : FsState) : Prop :=
  ∀ n, activeLookup .mcpR n s₁ = activeLookup .mcpR n s₂

/-- The predicate of the dedup property: a loaded entry with the given name
coming from the primary (`user`) or the supplementary (`mcp.json`) source. -/
def PDedup (n : String) (v : MCPServer) : Bool :=
  decide (v.name = n) && (decide (v.source = LoadSource.user) || decide (v.source = LoadSource.mcpJsonS))

/-- Invariant carried through the map-building folds of `loadMCPs`: the
primary/supplementary entries named `n` are exactly the one user entry, the
key `user:n` is present, and every entry satisfying `PDedup` sits at a
`user:`-prefixed map key. -/
def DedupInv (n : String) (c₁ : MCPConfig) (m : ObjList MCPServer) : Prop :=
  ((m.map Prod.snd).filter (PDedup n) = [mkUserEntry n c₁]) ∧
  (objGet ("user:" ++ n) m).isSome = true ∧
  (∀ kv ∈ m, PDedup n kv.2 = true → "user:".data.isPrefixOf kv.1.data = true)

/-! ### Shared concrete fixtures (used by witnesses and counterexamples) -/

/-- A sample payload. -/
def fixCfg : MCPConfig := { command := some "npx" }

/-- A second, different sample payload. -/
def fixCfg2 : MCPConfig := { command := some "other" }

/-- Sample archive metadata. -/
def fixMeta : MCPMeta := { disabledAt := 0, reason := "user" }

/-- The empty file system: no files, empty backup area, clock 0. -/
def emptyFs : FsState :=
  { claudeFile := .absent, mcpFile := .absent, disabledFile := .absent,
    backups := [], backupMetas := [], agentsActive := [], agentsDisabled := [],
    skillsActive := [], skillsDisabled := [], clock := 0 }

/-- A `~/.claude.json` document with two user-level MCPs. -/
def fixClaudeDoc : ClaudeJsonFile :=
  { mcpServers := some [("memory", fixCfg), ("playwright", fixCfg2)] }

/-- A state with two user-level MCPs and no archive. -/
def fixActiveFs : FsState := { emptyFs with claudeFile := .wellFormed fixClaudeDoc }

/-- A sample archived user-level entry. -/
def fixEntry : DisabledMCPEntry := { config := fixCfg, source := .user, metadata := fixMeta }

/-- A `~/.claude.json` document with the single user-level MCP `bbb`. -/
def fixBbbDoc : ClaudeJsonFile := { mcpServers := some [("bbb", fixCfg2)] }

/-- A state where `bbb` is archived under `user:bbb` and also live at its
destination (the conflict situation). -/
def fixConflictFs : FsState :=
  { emptyFs with
    claudeFile := .wellFormed fixBbbDoc,
    disabledFile := .wellFormed
      { version := some 1, disabled := some [("user:bbb", fixEntry)] } }

/-- A state with three archived user entries `aaa`, `bbb`, `ccc` where `bbb`
is also live (so bulk enable succeeds on `aaa`, fails on `bbb`, and never
reaches `ccc`). -/
def fixBulkFs : FsState :=
  { emptyFs with
    claudeFile := .wellFormed fixBbbDoc,
    disabledFile := .wellFormed
      { version := some 1, disabled := some
          [("user:aaa", fixEntry), ("user:bbb", fixEntry), ("user:ccc", fixEntry)] } }

/-- A `~/.claude.json` document with one project whose MCP name contains a
colon. -/
def fixColonDoc : ClaudeJsonFile :=
  { projects := some [("/p", { mcpServers := some [("a:b", fixCfg)] })] }

/-- A state with a local-scope item whose name contains a colon. -/
def fixColonFs : FsState := { emptyFs with claudeFile := .wellFormed fixColonDoc }

/-- A state with one disabled agent file. -/
def fixAgentFs : FsState := { emptyFs with agentsDisabled := ["a.md"] }

/-- A state with one backup of `~/.claude.json` and its sidecar. -/
def fixRestoreFs : FsState :=
  { emptyFs with
    claudeFile := .wellFormed fixBbbDoc,
    backups := [⟨".claude.json", 3, .claudeDoc { mcpServers := some [("x", fixCfg)] }⟩],
    backupMetas := [⟨".claude.json", 3, .claudeJsonP, 3, "manual"⟩] }

/-- A state whose only file is an empty (but well-formed) `~/.claude.json`,
with an empty backups directory. -/
def fixSnapshotFs : FsState := { emptyFs with claudeFile := .wellFormed {} }

/-- A state where the primary and the supplementary source both define
`memory`, with different payloads. -/
def fixDedupFs : FsState :=
  { emptyFs with
    claudeFile := .wellFormed { mcpServers := some [("memory", fixCfg)] },
    mcpFile := .wellFormed { mcpServers := some [("memory", fixCfg2)] } }

/-- Invariant of a run of repeated snapshots of path `p` (whose current bytes
stay `b₀`): the backups for `p` are exactly the stamps
`start, start+1, …, start+m-1`, each sidecar matches its backup, and the
clock sits at `start + m`. -/
def RetentionInv (p : KnownPath) (b₀ : RawBytes) (start m : Nat) (s : FsState) : Prop :=
  bytesAt p s = some b₀ ∧
  s.clock = start + m ∧
  m ≤ MAX_BACKUPS ∧
  s.backups = (List.range' start m).map (fun t => ⟨p.baseName, t, b₀⟩) ∧
  s.backupMetas.map (fun mt => (mt.base, mt.stamp))
    = (List.range' start m).map (fun t => (p.baseName, t))

/-! ### Association-list lemmas -/

theorem objGet_map_replace {α : Type} (k : String) (v : α) (l : ObjList α) :
    objGet k (l.map (fun p => if p.1 = k then (k, v) else p)) =
      (objGet k l).map (fun _ => v) := by
  induction l with
  | nil => rfl
  | cons p t ih =>
    simp only [List.map_cons]
    by_cases hk : p.1 = k
    · rw [if_pos hk]
      simp [objGet, hk, ih]
    · rw [if_neg hk]
      simp [objGet, hk, ih]

theorem objGet_map_replace_ne {α : Type} {k k' : String} (h : k' ≠ k) (v : α)
    (l : ObjList α) :
    objGet k' (l.map (fun p => if p.1 = k then (k, v) else p)) = objGet k' l := by
  induction l with
  | nil => rfl
  | cons p t ih =>
    simp only [List.map_cons]
    by_cases hk : p.1 = k
    · rw [if_pos hk]
      have hp : p.1 ≠ k' := by rw [hk]; exact fun hh => h hh.symm
      simp [objGet, Ne.symm h, hp, ih]
    · rw [if_neg hk]
      simp [objGet, ih]

theorem objGet_append_one {α : Type} (k k₀ : String) (v : α) (l : ObjList α) :
    objGet k (l ++ [(k₀, v)]) =
      match objGet k l with
      | some w => some w
      | none => if k₀ = k then some v else none := by
  induction l with
  | nil => simp [objGet]
  | cons p t ih =>
    by_cases hk : p.1 = k
    · simp [objGet, hk]
    · simp [objGet, hk, ih]

theorem objGet_set_self {α : Type} (k : String) (v : α) (l : ObjList α) :
    objGet k (objSet k v l) = some v := by
  unfold objSet
  split
  · rename_i h
    rw [objGet_map_replace]
    obtain ⟨w, hw⟩ := Option.isSome_iff_exists.mp h
    rw [hw]
    rfl
  · rename_i h
    rw [objGet_append_one]
    rw [Option.not_isSome_iff_eq_none.mp h]
    simp

theorem objGet_set_ne {α : Type} {k k' : String} (h : k' ≠ k) (v : α) (l : ObjList α) :
    objGet k' (objSet k v l) = objGet k' l := by
  unfold objSet
  split
  · exact objGet_map_replace_ne h v l
  · rw [objGet_append_one]
    cases hg : objGet k' l with
    | some w => rfl
    | none =>
      simp [hg]
      exact fun hh => h hh.symm

theorem objDel_cons_eq {α : Type} {k : String} {p : String × α} (hk : p.1 = k)
    (t : ObjList α) : objDel k (p :: t) = objDel k t := by
  simp [objDel, hk]

theorem objDel_cons_ne {α : Type} {k : String} {p : String × α} (hk : ¬ p.1 = k)
    (t : ObjList α) : objDel k (p :: t) = p :: objDel k t := by
  simp [objDel, hk]

theorem objGet_del_self {α : Type} (k : String) (l : ObjList α) :
    objGet k (objDel k l) = none := by
  induction l with
  | nil => rfl
  | cons p t ih =>
    by_cases hk : p.1 = k
    · rw [objDel_cons_eq hk]
      exact ih
    · rw [objDel_cons_ne hk]
      simpa [objGet, hk] using ih

theorem objGet_del_ne {α : Type} {k k' : String} (h : k' ≠ k) (l : ObjList α) :
    objGet k' (objDel k l) = objGet k' l := by
  induction l with
  | nil => rfl
  | cons p t ih =>
    by_cases hk : p.1 = k
    · have hne : ¬ p.1 = k' := by rw [hk]; exact fun hh => h hh.symm
      rw [objDel_cons_eq hk]
      simpa [objGet, hne] using ih
    · rw [objDel_cons_ne hk]
      by_cases hk' : p.1 = k'
      · simp [objGet, hk']
      · simpa [objGet, hk'] using ih

theorem objGet_set_del_round {α : Type} (k : String) (v : α) (l : ObjList α)
    (hl : objGet k l = some v) (k' : String) :
    objGet k' (objSet k v (objDel k l)) = objGet k' l := by
  by_cases hk : k' = k
  · subst hk
    rw [objGet_set_self, hl]
  · rw [objGet_set_ne hk, objGet_del_ne hk]

/-! ### String helper lemmas -/

theorem isPrefixOf_append_self (p r : List Char) : p.isPrefixOf (p ++ r) = true := by
  simp [List.isPrefixOf_iff_prefix]

theorem stripFirstChars_append (p r : List Char) : stripFirstChars p (p ++ r) = r := by
  cases hp : p ++ r with
  | nil =>
    have hpn := List.append_eq_nil.mp hp
    rw [hpn.1, hpn.2]
    rfl
  | cons c cs =>
    unfold stripFirstChars
    have hpre : p.isPrefixOf (c :: cs) = true := by
      rw [← hp]
      exact isPrefixOf_append_self p r
    simp only [hpre, if_true]
    rw [← hp, List.drop_left]

theorem stripFirst_append (p r : String) : stripFirst p (p ++ r) = r := by
  unfold stripFirst
  rw [String.data_append, stripFirstChars_append]

theorem splitColonChars_ne_nil (l : List Char) : splitColonChars l ≠ [] := by
  induction l with
  | nil => simp [splitColonChars]
  | cons c cs ih =>
    unfold splitColonChars
    by_cases hc : c = ':'
    · simp [hc]
    · simp only [if_neg hc]
      cases h : splitColonChars cs with
      | nil => exact absurd h ih
      | cons a b => simp

theorem splitColonChars_no_colon (l : List Char) (h : ∀ c ∈ l, c ≠ ':') :
    splitColonChars l = [l] := by
  induction l with
  | nil => rfl
  | cons c cs ih =>
    have hc : c ≠ ':' := h c (List.mem_cons_self c cs)
    have ih' := ih (fun x hx => h x (List.mem_cons_of_mem c hx))
    unfold splitColonChars
    rw [if_neg hc, ih']

theorem splitColonChars_len2 (l : List Char) (h : ':' ∈ l) :
    2 ≤ (splitColonChars l).length := by
  induction l with
  | nil => cases h
  | cons c cs ih =>
    unfold splitColonChars
    by_cases hc : c = ':'
    · rw [if_pos hc]
      cases hs : splitColonChars cs with
      | nil => exact absurd hs (splitColonChars_ne_nil cs)
      | cons a b => simp
    · rw [if_neg hc]
      have hcs : ':' ∈ cs := by
        rcases List.mem_cons.mp h with h1 | h2
        · exact absurd h1.symm hc
        · exact h2
      have hlen := ih hcs
      cases hs : splitColonChars cs with
      | nil => exact absurd hs (splitColonChars_ne_nil cs)
      | cons a b =>
        rw [hs] at hlen
        simpa using hlen

theorem splitColonChars_getLast (xs ys : List Char) (h : ∀ c ∈ ys, c ≠ ':') :
    (splitColonChars (xs ++ ':' :: ys)).getLast? = some ys := by
  induction xs with
  | nil =>
    simp only [List.nil_append]
    unfold splitColonChars
    rw [if_pos rfl, splitColonChars_no_colon ys h]
    rfl
  | cons c cs ih =>
    simp only [List.cons_append]
    unfold splitColonChars
    by_cases hc : c = ':'
    · rw [if_pos hc]
      cases hs : splitColonChars (cs ++ ':' :: ys) with
      | nil => exact absurd hs (splitColonChars_ne_nil _)
      | cons a b =>
        rw [List.getLast?_cons_cons, ← hs]
        exact ih
    · rw [if_neg hc]
      cases hs : splitColonChars (cs ++ ':' :: ys) with
      | nil => exact absurd hs (splitColonChars_ne_nil _)
      | cons a b =>
        have hlen : 2 ≤ (splitColonChars (cs ++ ':' :: ys)).length :=
          splitColonChars_len2 _ (by simp)
        rw [hs] at hlen
        cases b with
        | nil => simp at hlen
        | cons b0 bs =>
          have ih' := ih
          rw [hs, List.getLast?_cons_cons] at ih'
          rw [List.getLast?_cons_cons]
          exact ih'

theorem lastPart_append_colon (k n : String) (h : ∀ c ∈ n.data, c ≠ ':') :
    lastPart (splitColonStr (k ++ ":" ++ n)) = n := by
  unfold splitColonStr lastPart
  have hdata : (k ++ ":" ++ n).data = k.data ++ ':' :: n.data := by
    rw [String.data_append, String.data_append, List.append_assoc]
    rfl
  rw [hdata, List.getLast?_map, splitColonChars_getLast k.data n.data h]
  rfl

/-! ### State-preservation lemmas for the primitive effects -/

theorem cleanupOldBackups_claudeFile (b : String) (s : FsState) :
    (cleanupOldBackups b s).claudeFile = s.claudeFile := by
  unfold cleanupOldBackups
  split <;> rfl

theorem cleanupOldBackups_mcpFile (b : String) (s : FsState) :
    (cleanupOldBackups b s).mcpFile = s.mcpFile := by
  unfold cleanupOldBackups
  split <;> rfl

theorem cleanupOldBackups_disabledFile (b : String) (s : FsState) :
    (cleanupOldBackups b s).disabledFile = s.disabledFile := by
  unfold cleanupOldBackups
  split <;> rfl

theorem createBackup_claudeFile (p : KnownPath) (d : String) (s : FsState) :
    (createBackup p d s).claudeFile = s.claudeFile := by
  unfold createBackup
  cases bytesAt p s with
  | none => rfl
  | some b => rw [cleanupOldBackups_claudeFile]

theorem createBackup_mcpFile (p : KnownPath) (d : String) (s : FsState) :
    (createBackup p d s).mcpFile = s.mcpFile := by
  unfold createBackup
  cases bytesAt p s with
  | none => rfl
  | some b => rw [cleanupOldBackups_mcpFile]

theorem createBackup_disabledFile (p : KnownPath) (d : String) (s : FsState) :
    (createBackup p d s).disabledFile = s.disabledFile := by
  unfold createBackup
  cases bytesAt p s with
  | none => rfl
  | some b => rw [cleanupOldBackups_disabledFile]

theorem activeLookup_congr (r : ActiveRef) (n : String) {s₁ s₂ : FsState}
    (hc : s₁.claudeFile = s₂.claudeFile) (hm : s₁.mcpFile = s₂.mcpFile) :
    activeLookup r n s₁ = activeLookup r n s₂ := by
  cases r <;> simp [activeLookup, hc, hm]

theorem archiveLookup_congr (k : String) {s₁ s₂ : FsState}
    (hd : s₁.disabledFile = s₂.disabledFile) :
    archiveLookup k s₁ = archiveLookup k s₂ := by
  simp [archiveLookup, disabledObj, hd]

theorem inActive_createBackup (p : KnownPath) (d : String) (s : FsState)
    (r : ActiveRef) (n : String) :
    inActive (createBackup p d s) r n = inActive s r n := by
  unfold inActive
  rw [activeLookup_congr r n (createBackup_claudeFile p d s) (createBackup_mcpFile p d s)]

theorem inArchive_createBackup (p : KnownPath) (d : String) (s : FsState) (k : String) :
    inArchive (createBackup p d s) k = inArchive s k := by
  unfold inArchive
  rw [archiveLookup_congr k (createBackup_disabledFile p d s)]

theorem inActive_writeDisabled (d : MCPDisabledFile) (s : FsState)
    (r : ActiveRef) (n : String) :
    inActive (applyPrim s (.writeDisabled d)) r n = inActive s r n := by
  unfold inActive
  exact congrArg Option.isSome (activeLookup_congr r n rfl rfl)

theorem inArchive_writeClaude (d : ClaudeJsonFile) (s : FsState) (k : String) :
    inArchive (applyPrim s (.writeClaude d)) k = inArchive s k := by
  unfold inArchive
  exact congrArg Option.isSome (archiveLookup_congr k rfl)

theorem inArchive_writeMcp (d : MCPJsonFile) (s : FsState) (k : String) :
    inArchive (applyPrim s (.writeMcp d)) k = inArchive s k := by
  unfold inArchive
  exact congrArg Option.isSome (archiveLookup_congr k rfl)

theorem archiveLookup_writeDisabled (d : MCPDisabledFile) (s : FsState) (k : String) :
    archiveLookup k (applyPrim s (.writeDisabled d)) = d.disabled.bind (objGet k) := by
  cases hd : d.disabled <;> simp [applyPrim, archiveLookup, disabledObj, readJsonFileD, hd]

theorem activeLookup_user_writeClaude (d : ClaudeJsonFile) (s : FsState) (n : String) :
    activeLookup .userR n (applyPrim s (.writeClaude d)) = objGet n (d.mcpServers.getD []) := rfl

theorem activeLookup_local_writeClaude (d : ClaudeJsonFile) (s : FsState) (pp n : String) :
    activeLookup (.localR pp) n (applyPrim s (.writeClaude d)) =
      match objGet pp (d.projects.getD []) with
      | none => none
      | some pc => objGet n (pc.mcpServers.getD []) := rfl

theorem activeLookup_mcpR_writeMcp (d : MCPJsonFile) (s : FsState) (n : String) :
    activeLookup .mcpR n (applyPrim s (.writeMcp d)) = objGet n (d.mcpServers.getD []) := rfl

theorem activeLookup_user_writeDisabled (d : MCPDisabledFile) (s : FsState) (n : String) :
    activeLookup .userR n (applyPrim s (.writeDisabled d)) = activeLookup .userR n s := rfl

/-! ### C7 — structured read: absent vs malformed -/

/-- C7 counterexample: on a present-but-malformed file, `readJsonFile` does
not fail with a `ParseError` — the `catch` swallows the parse failure and the
call returns the supplied default exactly as in the absent case.  (The
function has no error outcome at all in its type.) -/
theorem readJsonFile_malformed_cx :
    readJsonFileD (.malformed "oops not json") ({ version := some 1, disabled := some [] } : MCPDisabledFile)
      = { version := some 1, disabled := some [] } ∧
    readJsonFileD (.malformed "oops not json") ({ version := some 1, disabled := some [] } : MCPDisabledFile)
      = readJsonFileD .absent ({ version := some 1, disabled := some [] } : MCPDisabledFile) :=
  ⟨rfl, rfl⟩

/-- C7 (amended): for every path content and default, the structured read
returns the default when the file is absent and also when it is present but
malformed (parse failures degrade to the default; no `ParseError` is ever
raised), and returns the parsed document when the file is well-formed. -/
theorem readJsonFile_semantics (α : Type) (d : α) (raw : String) (v : α) :
    readJsonFileD .absent d = d ∧ readJsonFileD (.malformed raw) d = d ∧
      readJsonFileD (.wellFormed v) d = v :=
  ⟨rfl, rfl, rfl⟩

/-! ### C10 — loading the merged view is read-only -/

/-- C10: `loadMCPs` performs no file-system effect — its body contains only
reads — so for every starting state the state is unchanged and a second load
with no intervening change returns the same list. -/
theorem loadMCPs_readonly :
    ∀ s : FsState, (loadMCPsRun s).2 = [] ∧ applyOps s (loadMCPsRun s).2 = s ∧
      (loadMCPsRun (applyOps s (loadMCPsRun s).2)).1 = (loadMCPsRun s).1 :=
  fun _ => ⟨rfl, rfl, rfl⟩

theorem applyPrim_backupOp (s : FsState) (p : KnownPath) (d : String) :
    applyPrim s (.backupOp p d) = createBackup p d s := rfl

/-! ### C1 — archive-first / active-first crash safety -/

/-- C1: `disableMcp` writes the payload into the disabled archive before
removing it from its active source file, and `enableMcp` writes the payload
into the destination active file before removing it from the archive.  For
every prefix of the operation's effect list (every crash point), the item is
present in the archive or present in the active slot — never absent from
both — and on the success path the state after the first two effects (between
the two `writeJsonFileAtomic` calls) has the item present in both places. -/
theorem mcp_crash_safety :
    (∀ (s : FsState) (r : ActiveRef) (n : String),
      inActive s r n = true →
        (∀ k, k ≤ ((disableMcp n r.src r.pp s).2).length →
          inArchive (applyOps s (((disableMcp n r.src r.pp s).2).take k)) (archiveKey r n) = true ∨
          inActive (applyOps s (((disableMcp n r.src r.pp s).2).take k)) r n = true) ∧
        ((disableMcp n r.src r.pp s).1.success = true →
          inArchive (applyOps s (((disableMcp n r.src r.pp s).2).take 2)) (archiveKey r n) = true ∧
          inActive (applyOps s (((disableMcp n r.src r.pp s).2).take 2)) r n = true)) ∧
    (∀ (s : FsState) (key : String) (e : DisabledMCPEntry),
      archiveLookup key s = some e →
        (∀ k, k ≤ ((enableMcp key s).2).length →
          inArchive (applyOps s (((enableMcp key s).2).take k)) key = true ∨
          (∃ rn : ActiveRef × String, enableDest key e = some rn ∧
            inActive (applyOps s (((enableMcp key s).2).take k)) rn.1 rn.2 = true)) ∧
        ((enableMcp key s).1.success = true →
          ∃ rn : ActiveRef × String, enableDest key e = some rn ∧
            inArchive (applyOps s (((enableMcp key s).2).take 2)) key = true ∧
            inActive (applyOps s (((enableMcp key s).2).take 2)) rn.1 rn.2 = true)) := by
  constructor
  · intro s r n h
    have hArch : inArchive s (archiveKey r n) = true ∨ inActive s r n = true := Or.inr h
    cases r with
    | userR =>
      have hc := h
      simp only [inActive, activeLookup] at hc
      obtain ⟨c, hc⟩ := Option.isSome_iff_exists.mp hc
      simp only [disableMcp, ActiveRef.src, ActiveRef.pp]
      rw [hc]
      cases hdl : (readJsonFileD s.disabledFile { version := some 1, disabled := some [] }).disabled with
      | none =>
        refine ⟨?_, ?_⟩
        · intro k hk
          simp only [List.length_cons, List.length_nil] at hk
          interval_cases k
          · right
            simpa [applyOps] using h
          · right
            simp only [List.take, applyOps, List.foldl, applyPrim]
            rw [inActive_createBackup]
            exact h
        · intro hs
          simp at hs
      | some dl =>
        refine ⟨?_, ?_⟩
        · intro k hk
          simp only [List.length_cons, List.length_nil] at hk
          interval_cases k
          · right
            simpa [applyOps] using h
          · right
            simp only [List.take, applyOps, List.foldl, applyPrim]
            rw [inActive_createBackup]
            exact h
          · left
            simp only [List.take, applyOps, List.foldl]
            unfold inArchive
            rw [archiveLookup_writeDisabled]
            simp [archiveKey, objGet_set_self]
          · left
            simp only [List.take, applyOps, List.foldl]
            rw [inArchive_writeClaude]
            unfold inArchive
            rw [archiveLookup_writeDisabled]
            simp [archiveKey, objGet_set_self]
        · intro _
          constructor
          · simp only [List.take, applyOps, List.foldl]
            unfold inArchive
            rw [archiveLookup_writeDisabled]
            simp [archiveKey, objGet_set_self]
          · simp only [List.take, applyOps, List.foldl]
            rw [inActive_writeDisabled, applyPrim_backupOp, inActive_createBackup]
            exact h
    | localR pp =>
      have hc := h
      simp only [inActive, activeLookup] at hc
      cases hpc : objGet pp ((readJsonFileD s.claudeFile {}).projects.getD []) with
      | none =>
        rw [hpc] at hc
        simp at hc
      | some pc =>
        rw [hpc] at hc
        simp only [Option.isSome] at hc
        obtain ⟨c, hc⟩ := Option.isSome_iff_exists.mp hc
        simp only [disableMcp, ActiveRef.src, ActiveRef.pp]
        rw [hpc]
        simp only [Option.getD_some]
        rw [hc]
        cases hdl : (readJsonFileD s.disabledFile { version := some 1, disabled := some [] }).disabled with
        | none =>
          refine ⟨?_, ?_⟩
          · intro k hk
            simp only [List.length_cons, List.length_nil] at hk
            interval_cases k
            · right
              simpa [applyOps] using h
            · right
              simp only [List.take, applyOps, List.foldl, applyPrim]
              rw [inActive_createBackup]
              exact h
          · intro hs
            simp at hs
        | some dl =>
          refine ⟨?_, ?_⟩
          · intro k hk
            simp only [List.length_cons, List.length_nil] at hk
            interval_cases k
            · right
              simpa [applyOps] using h
            · right
              simp only [List.take, applyOps, List.foldl, applyPrim]
              rw [inActive_createBackup]
              exact h
            · left
              simp only [List.take, applyOps, List.foldl]
              unfold inArchive
              rw [archiveLookup_writeDisabled]
              simp [archiveKey, objGet_set_self]
            · left
              simp only [List.take, applyOps, List.foldl]
              rw [inArchive_writeClaude]
              unfold inArchive
              rw [archiveLookup_writeDisabled]
              simp [archiveKey, objGet_set_self]
          · intro _
            constructor
            · simp only [List.take, applyOps, List.foldl]
              unfold inArchive
              rw [archiveLookup_writeDisabled]
              simp [archiveKey, objGet_set_self]
            · simp only [List.take, applyOps, List.foldl]
              rw [inActive_writeDisabled, applyPrim_backupOp, inActive_createBackup]
              exact h
    | mcpR =>
      have hc := h
      simp only [inActive, activeLookup] at hc
      obtain ⟨c, hc⟩ := Option.isSome_iff_exists.mp hc
      simp only [disableMcp, ActiveRef.src, ActiveRef.pp]
      rw [hc]
      cases hdl : (readJsonFileD s.disabledFile { version := some 1, disabled := some [] }).disabled with
      | none =>
        refine ⟨?_, ?_⟩
        · intro k hk
          simp only [List.length_cons, List.length_nil] at hk
          interval_cases k
          · right
            simpa [applyOps] using h
          · right
            simp only [List.take, applyOps, List.foldl, applyPrim]
            rw [inActive_createBackup]
            exact h
        · intro hs
          simp at hs
      | some dl =>
        refine ⟨?_, ?_⟩
        · intro k hk
          simp only [List.length_cons, List.length_nil] at hk
          interval_cases k
          · right
            simpa [applyOps] using h
          · right
            simp only [List.take, applyOps, List.foldl, applyPrim]
            rw [inActive_createBackup]
            exact h
          · left
            simp only [List.take, applyOps, List.foldl]
            unfold inArchive
            rw [archiveLookup_writeDisabled]
            simp [archiveKey, objGet_set_self]
          · left
            simp only [List.take, applyOps, List.foldl]
            rw [inArchive_writeMcp]
            unfold inArchive
            rw [archiveLookup_writeDisabled]
            simp [archiveKey, objGet_set_self]
        · intro _
          constructor
          · simp only [List.take, applyOps, List.foldl]
            unfold inArchive
            rw [archiveLookup_writeDisabled]
            simp [archiveKey, objGet_set_self]
          · simp only [List.take, applyOps, List.foldl]
            rw [inActive_writeDisabled, applyPrim_backupOp, inActive_createBackup]
            exact h
  · intro s key e he
    have hin : inArchive s key = true := by
      unfold inArchive
      rw [he]
      rfl
    have he' := he
    unfold archiveLookup at he'
    cases hdo : disabledObj s with
    | none =>
      rw [hdo] at he'
      cases he'
    | some dl =>
      rw [hdo] at he'
      simp only at he'
      simp only [disabledObj] at hdo
      simp only [enableMcp]
      rw [hdo]
      dsimp only
      rw [he']
      dsimp only
      cases hsrc : e.source with
      | user =>
        dsimp only
        by_cases hocc : (objGet (stripFirst "user:" key)
            ((readJsonFileD s.claudeFile {}).mcpServers.getD [])).isSome
        · rw [if_pos hocc]
          refine ⟨?_, ?_⟩
          · intro k hk
            simp only [List.length_nil] at hk
            interval_cases k
            left
            simpa [applyOps] using hin
          · intro hs
            simp at hs
        · rw [if_neg hocc]
          refine ⟨?_, ?_⟩
          · intro k hk
            simp only [List.length_cons, List.length_nil] at hk
            interval_cases k
            · left
              simpa [applyOps] using hin
            · left
              simp only [List.take, applyOps, List.foldl, applyPrim]
              rw [inArchive_createBackup]
              exact hin
            · right
              refine ⟨(.userR, stripFirst "user:" key), by simp [enableDest, hsrc], ?_⟩
              simp only [List.take, applyOps, List.foldl]
              unfold inActive
              rw [activeLookup_user_writeClaude]
              simp [objGet_set_self]
            · right
              refine ⟨(.userR, stripFirst "user:" key), by simp [enableDest, hsrc], ?_⟩
              simp only [List.take, applyOps, List.foldl]
              rw [inActive_writeDisabled]
              unfold inActive
              rw [activeLookup_user_writeClaude]
              simp [objGet_set_self]
          · intro _
            refine ⟨(.userR, stripFirst "user:" key), by simp [enableDest, hsrc], ?_, ?_⟩
            · simp only [List.take, applyOps, List.foldl]
              rw [inArchive_writeClaude, applyPrim_backupOp, inArchive_createBackup]
              exact hin
            · simp only [List.take, applyOps, List.foldl]
              unfold inActive
              rw [activeLookup_user_writeClaude]
              simp [objGet_set_self]
      | localSrc =>
        dsimp only
        cases hppe : e.projectPath with
        | none =>
          dsimp only
          refine ⟨?_, ?_⟩
          · intro k hk
            simp only [List.length_nil] at hk
            interval_cases k
            left
            simpa [applyOps] using hin
          · intro hs
            simp at hs
        | some pp =>
          dsimp only
          by_cases hocc : (objGet (lastPart (splitColonStr key))
              (((objGet pp ((readJsonFileD s.claudeFile {}).projects.getD [])).getD {}).mcpServers.getD [])).isSome
          · rw [if_pos hocc]
            refine ⟨?_, ?_⟩
            · intro k hk
              simp only [List.length_nil] at hk
              interval_cases k
              left
              simpa [applyOps] using hin
            · intro hs
              simp at hs
          · rw [if_neg hocc]
            refine ⟨?_, ?_⟩
            · intro k hk
              simp only [List.length_cons, List.length_nil] at hk
              interval_cases k
              · left
                simpa [applyOps] using hin
              · left
                simp only [List.take, applyOps, List.foldl, applyPrim]
                rw [inArchive_createBackup]
                exact hin
              · right
                refine ⟨(.localR pp, lastPart (splitColonStr key)), by simp [enableDest, hsrc, hppe], ?_⟩
                simp only [List.take, applyOps, List.foldl]
                unfold inActive
                rw [activeLookup_local_writeClaude]
                simp [objGet_set_self]
              · right
                refine ⟨(.localR pp, lastPart (splitColonStr key)), by simp [enableDest, hsrc, hppe], ?_⟩
                simp only [List.take, applyOps, List.foldl]
                rw [inActive_writeDisabled]
                unfold inActive
                rw [activeLookup_local_writeClaude]
                simp [objGet_set_self]
            · intro _
              refine ⟨(.localR pp, lastPart (splitColonStr key)), by simp [enableDest, hsrc, hppe], ?_, ?_⟩
              · simp only [List.take, applyOps, List.foldl]
                rw [inArchive_writeClaude, applyPrim_backupOp, inArchive_createBackup]
                exact hin
              · simp only [List.take, applyOps, List.foldl]
                unfold inActive
                rw [activeLookup_local_writeClaude]
                simp [objGet_set_self]
      | mcpJsonSrc =>
        dsimp only
        cases hms : (readJsonFileD s.mcpFile { mcpServers := some [] }).mcpServers with
        | none =>
          dsimp only
          refine ⟨?_, ?_⟩
          · intro k hk
            simp only [List.length_nil] at hk
            interval_cases k
            left
            simpa [applyOps] using hin
          · intro hs
            simp at hs
        | some servers =>
          dsimp only
          by_cases hocc : (objGet (stripFirst "mcpjson:" key) servers).isSome
          · rw [if_pos hocc]
            refine ⟨?_, ?_⟩
            · intro k hk
              simp only [List.length_nil] at hk
              interval_cases k
              left
              simpa [applyOps] using hin
            · intro hs
              simp at hs
          · rw [if_neg hocc]
            refine ⟨?_, ?_⟩
            · intro k hk
              simp only [List.length_cons, List.length_nil] at hk
              interval_cases k
              · left
                simpa [applyOps] using hin
              · left
                simp only [List.take, applyOps, List.foldl, applyPrim]
                rw [inArchive_createBackup]
                exact hin
              · right
                refine ⟨(.mcpR, stripFirst "mcpjson:" key), by simp [enableDest, hsrc], ?_⟩
                simp only [List.take, applyOps, List.foldl]
                unfold inActive
                rw [activeLookup_mcpR_writeMcp]
                simp [objGet_set_self]
              · right
                refine ⟨(.mcpR, stripFirst "mcpjson:" key), by simp [enableDest, hsrc], ?_⟩
                simp only [List.take, applyOps, List.foldl]
                rw [inActive_writeDisabled]
                unfold inActive
                rw [activeLookup_mcpR_writeMcp]
                simp [objGet_set_self]
            · intro _
              refine ⟨(.mcpR, stripFirst "mcpjson:" key), by simp [enableDest, hsrc], ?_, ?_⟩
              · simp only [List.take, applyOps, List.foldl]
                rw [inArchive_writeMcp, applyPrim_backupOp, inArchive_createBackup]
                exact hin
              · simp only [List.take, applyOps, List.foldl]
                unfold inActive
                rw [activeLookup_mcpR_writeMcp]
                simp [objGet_set_self]

/-- Witness for C1: the disable half applied to the concrete state
`fixActiveFs` at the user-level item `memory`. -/
theorem mcp_crash_safety_witness :
    inActive fixActiveFs .userR "memory" = true ∧
    inArchive (applyOps fixActiveFs
      (((disableMcp "memory" ActiveRef.userR.src ActiveRef.userR.pp fixActiveFs).2).take 2))
      (archiveKey .userR "memory") = true ∧
    inActive (applyOps fixActiveFs
      (((disableMcp "memory" ActiveRef.userR.src ActiveRef.userR.pp fixActiveFs).2).take 2))
      .userR "memory" = true := by
  have h1 : inActive fixActiveFs .userR "memory" = true := by decide
  have h2 := (mcp_crash_safety.1 fixActiveFs .userR "memory" h1).2 (by decide)
  exact ⟨h1, h2.1, h2.2⟩

theorem activeLookup_localR_eq (pp n : String) (s : FsState) :
    activeLookup (.localR pp) n s =
      objGet n (((objGet pp ((readJsonFileD s.claudeFile {}).projects.getD [])).getD {}).mcpServers.getD []) := by
  simp only [activeLookup]
  cases objGet pp ((readJsonFileD s.claudeFile {}).projects.getD []) with
  | none => rfl
  | some pc => rfl

/-! ### C3 — enable conflicts make zero file changes -/

/-- C3: for every archived entry whose name (as the code derives it from the
archive key) already exists live at the entry's destination active store,
`enableMcp` fails with the `already exists` conflict error and performs no
file-system effect at all: its effect list is empty and the state is exactly
the starting state. -/
theorem enable_conflict_no_change :
    ∀ (s : FsState) (key : String) (e : DisabledMCPEntry) (r : ActiveRef) (nm : String),
      archiveLookup key s = some e →
      enableDest key e = some (r, nm) →
      inActive s r nm = true →
      (enableMcp key s).1.success = false ∧
      (enableMcp key s).1.error = some (enableConflictMsg e.source nm) ∧
      (enableMcp key s).2 = [] ∧
      applyOps s ((enableMcp key s).2) = s := by
  intro s key e r nm he hdest hocc
  have he' := he
  unfold archiveLookup at he'
  cases hdo : disabledObj s with
  | none =>
    rw [hdo] at he'
    cases he'
  | some dl =>
    rw [hdo] at he'
    simp only at he'
    simp only [disabledObj] at hdo
    simp only [enableMcp]
    rw [hdo]
    dsimp only
    rw [he']
    dsimp only
    cases hsrc : e.source with
    | user =>
      dsimp only
      simp only [enableDest, hsrc] at hdest
      have hpair := Option.some.inj hdest
      have hr : ActiveRef.userR = r := congrArg Prod.fst hpair
      have hn : stripFirst "user:" key = nm := congrArg Prod.snd hpair
      subst hr
      subst hn
      have hocc' : (objGet (stripFirst "user:" key)
          ((readJsonFileD s.claudeFile {}).mcpServers.getD [])).isSome = true := by
        simpa [inActive, activeLookup] using hocc
      rw [if_pos hocc']
      exact ⟨rfl, rfl, rfl, rfl⟩
    | localSrc =>
      dsimp only
      cases hppe : e.projectPath with
      | none =>
        simp [enableDest, hsrc, hppe] at hdest
      | some pp =>
        dsimp only
        simp only [enableDest, hsrc, hppe] at hdest
        have hpair := Option.some.inj hdest
        have hr : ActiveRef.localR pp = r := congrArg Prod.fst hpair
        have hn : lastPart (splitColonStr key) = nm := congrArg Prod.snd hpair
        subst hr
        subst hn
        have hocc' : (objGet (lastPart (splitColonStr key))
            (((objGet pp ((readJsonFileD s.claudeFile {}).projects.getD [])).getD
              {}).mcpServers.getD [])).isSome = true := by
          rw [inActive, activeLookup_localR_eq] at hocc
          exact hocc
        rw [if_pos hocc']
        exact ⟨rfl, rfl, rfl, rfl⟩
    | mcpJsonSrc =>
      dsimp only
      simp only [enableDest, hsrc] at hdest
      have hpair := Option.some.inj hdest
      have hr : ActiveRef.mcpR = r := congrArg Prod.fst hpair
      have hn : stripFirst "mcpjson:" key = nm := congrArg Prod.snd hpair
      subst hr
      subst hn
      cases hms : (readJsonFileD s.mcpFile { mcpServers := some [] }).mcpServers with
      | none =>
        exfalso
        simp only [inActive, activeLookup, hms] at hocc
        simp [objGet] at hocc
      | some servers =>
        dsimp only
        have hocc' : (objGet (stripFirst "mcpjson:" key) servers).isSome = true := by
          simpa [inActive, activeLookup, hms] using hocc
        rw [if_pos hocc']
        exact ⟨rfl, rfl, rfl, rfl⟩

/-- Witness for C3 at the concrete conflict state `fixConflictFs`. -/
theorem enable_conflict_no_change_witness :
    archiveLookup "user:bbb" fixConflictFs = some fixEntry ∧
    enableDest "user:bbb" fixEntry = some (.userR, "bbb") ∧
    inActive fixConflictFs .userR "bbb" = true ∧
    (enableMcp "user:bbb" fixConflictFs).1.success = false ∧
    (enableMcp "user:bbb" fixConflictFs).2 = [] ∧
    applyOps fixConflictFs ((enableMcp "user:bbb" fixConflictFs).2) = fixConflictFs := by
  have h := enable_conflict_no_change fixConflictFs "user:bbb" fixEntry .userR "bbb"
    (by decide) (by decide) (by decide)
  exact ⟨by decide, by decide, by decide, h.1, h.2.2.1, h.2.2.2⟩

/-! ### C6 — backup policy of the mutating operations -/

/-- C6 (amended): for the MCP operations (disable, enable, delete) every
file modification is preceded by exactly one `createBackup` call, as the first
effect, on the single file named in the snapshot (the active source for
disable, the destination for enable, the containing store for delete) — the
rest of the effect list is atomic writes only.  But the backup happens only
after validation: an operation that fails early (not-found, conflict) emits
no effect at all, so no backup is taken for it; the disabled-archive file
modified by disable/enable is not itself backed up; and the agent and skill
toggles perform no backup whatsoever. -/
theorem backup_before_write_policy :
    (∀ (s : FsState) (n : String) (src : MCPSource) (pp : Option String),
      (disableMcp n src pp s).2 ≠ [] →
        ∃ d rest, (disableMcp n src pp s).2 = .backupOp (disableBackupPath src) d :: rest ∧
          rest.all (fun op => op.isAtomicWrite) = true) ∧
    (∀ (s : FsState) (key : String),
      (enableMcp key s).2 ≠ [] →
        ∃ p d rest, (enableMcp key s).2 = .backupOp p d :: rest ∧
          rest.all (fun op => op.isAtomicWrite) = true) ∧
    (∀ (s : FsState) (n : String) (src : LoadSource) (pp dk : Option String),
      (deleteMcp n src pp dk s).2 ≠ [] →
        ∃ p d rest, (deleteMcp n src pp dk s).2 = .backupOp p d :: rest ∧
          rest.all (fun op => op.isAtomicWrite) = true) ∧
    (∀ (s : FsState) (fn : String) (e : Bool),
      (toggleAgent fn e s).2.all (fun op => !op.isBackupOp) = true) ∧
    (∀ (s : FsState) (nm : String) (e : Bool),
      (toggleSkill nm e s).2.all (fun op => !op.isBackupOp) = true) := by
  refine ⟨?_, ?_, ?_, ?_, ?_⟩
  · intro s n src pp
    cases src with
    | user =>
      simp only [disableMcp]
      cases objGet n ((readJsonFileD s.claudeFile {}).mcpServers.getD []) with
      | none => intro h; exact absurd rfl h
      | some c =>
        cases (readJsonFileD s.disabledFile { version := some 1, disabled := some [] }).disabled with
        | none => intro _; exact ⟨_, _, rfl, rfl⟩
        | some dl => intro _; exact ⟨_, _, rfl, rfl⟩
    | localSrc =>
      simp only [disableMcp]
      cases pp with
      | none => intro h; exact absurd rfl h
      | some pp =>
        dsimp only
        cases objGet n (((objGet pp ((readJsonFileD s.claudeFile {}).projects.getD [])).getD {}).mcpServers.getD []) with
        | none => intro h; exact absurd rfl h
        | some c =>
          cases (readJsonFileD s.disabledFile { version := some 1, disabled := some [] }).disabled with
          | none => intro _; exact ⟨_, _, rfl, rfl⟩
          | some dl => intro _; exact ⟨_, _, rfl, rfl⟩
    | mcpJsonSrc =>
      simp only [disableMcp]
      cases objGet n ((readJsonFileD s.mcpFile { mcpServers := some [] }).mcpServers.getD []) with
      | none => intro h; exact absurd rfl h
      | some c =>
        cases (readJsonFileD s.disabledFile { version := some 1, disabled := some [] }).disabled with
        | none => intro _; exact ⟨_, _, rfl, rfl⟩
        | some dl => intro _; exact ⟨_, _, rfl, rfl⟩
  · intro s key
    simp only [enableMcp]
    cases (readJsonFileD s.disabledFile { version := some 1, disabled := some [] }).disabled with
    | none => intro h; exact absurd rfl h
    | some dl =>
      dsimp only
      cases objGet key dl with
      | none => intro h; exact absurd rfl h
      | some e =>
        dsimp only
        cases e.source with
        | user =>
          dsimp only
          by_cases hocc : (objGet (stripFirst "user:" key)
              ((readJsonFileD s.claudeFile {}).mcpServers.getD [])).isSome
          · rw [if_pos hocc]; intro h; exact absurd rfl h
          · rw [if_neg hocc]; intro _; exact ⟨_, _, _, rfl, rfl⟩
        | localSrc =>
          dsimp only
          cases e.projectPath with
          | none => intro h; exact absurd rfl h
          | some pp =>
            dsimp only
            by_cases hocc : (objGet (lastPart (splitColonStr key))
                (((objGet pp ((readJsonFileD s.claudeFile {}).projects.getD [])).getD {}).mcpServers.getD [])).isSome
            · rw [if_pos hocc]; intro h; exact absurd rfl h
            · rw [if_neg hocc]; intro _; exact ⟨_, _, _, rfl, rfl⟩
        | mcpJsonSrc =>
          dsimp only
          cases (readJsonFileD s.mcpFile { mcpServers := some [] }).mcpServers with
          | none => intro h; exact absurd rfl h
          | some servers =>
            dsimp only
            by_cases hocc : (objGet (stripFirst "mcpjson:" key) servers).isSome
            · rw [if_pos hocc]; intro h; exact absurd rfl h
            · rw [if_neg hocc]; intro _; exact ⟨_, _, _, rfl, rfl⟩
  · intro s n src pp dk
    cases src with
    | disabledS =>
      cases dk with
      | none => simp only [deleteMcp]; intro h; exact absurd rfl h
      | some dkk =>
        simp only [deleteMcp]
        cases (readJsonFileD s.disabledFile { version := some 1, disabled := some [] }).disabled with
        | none => intro h; exact absurd rfl h
        | some dl =>
          dsimp only
          by_cases hocc : (objGet dkk dl).isSome
          · rw [if_pos hocc]; intro _; exact ⟨_, _, _, rfl, rfl⟩
          · rw [if_neg hocc]; intro h; exact absurd rfl h
    | user =>
      cases dk with
      | none =>
        simp only [deleteMcp]
        cases objGet n ((readJsonFileD s.claudeFile {}).mcpServers.getD []) with
        | none => intro h; exact absurd rfl h
        | some c => intro _; exact ⟨_, _, _, rfl, rfl⟩
      | some dkk =>
        simp only [deleteMcp]
        cases objGet n ((readJsonFileD s.claudeFile {}).mcpServers.getD []) with
        | none => intro h; exact absurd rfl h
        | some c => intro _; exact ⟨_, _, _, rfl, rfl⟩
    | localS =>
      cases dk with
      | none =>
        simp only [deleteMcp]
        cases pp with
        | none => intro h; exact absurd rfl h
        | some ppp =>
          dsimp only
          cases objGet n (((objGet ppp ((readJsonFileD s.claudeFile {}).projects.getD [])).getD {}).mcpServers.getD []) with
          | none => intro h; exact absurd rfl h
          | some c => intro _; exact ⟨_, _, _, rfl, rfl⟩
      | some dkk =>
        simp only [deleteMcp]
        cases pp with
        | none => intro h; exact absurd rfl h
        | some ppp =>
          dsimp only
          cases objGet n (((objGet ppp ((readJsonFileD s.claudeFile {}).projects.getD [])).getD {}).mcpServers.getD []) with
          | none => intro h; exact absurd rfl h
          | some c => intro _; exact ⟨_, _, _, rfl, rfl⟩
    | mcpJsonS =>
      cases dk with
      | none =>
        simp only [deleteMcp]
        cases objGet n ((readJsonFileD s.mcpFile { mcpServers := some [] }).mcpServers.getD []) with
        | none => intro h; exact absurd rfl h
        | some c => intro _; exact ⟨_, _, _, rfl, rfl⟩
      | some dkk =>
        simp only [deleteMcp]
        cases objGet n ((readJsonFileD s.mcpFile { mcpServers := some [] }).mcpServers.getD []) with
        | none => intro h; exact absurd rfl h
        | some c => intro _; exact ⟨_, _, _, rfl, rfl⟩
  · intro s fn e
    simp only [toggleAgent]
    split <;> split <;> rfl
  · intro s nm e
    simp only [toggleSkill]
    split <;> split <;> rfl

/-- C6 counterexample: `toggleAgent` — a mutating operation of the archive
registry — moves the agent file between directories without creating any
backup: it succeeds, emits only a rename, and leaves the backups directory
untouched; and the conflict path of `enableMcp` returns before `createBackup`
is reached, so a backup does not exist for that attempted operation either.
This refutes the claim that every mutating operation snapshots every file it
is about to modify unconditionally, even when it fails on a conflict. -/
theorem backup_policy_cx :
    (toggleAgent "a.md" true fixAgentFs).1.success = true ∧
    (toggleAgent "a.md" true fixAgentFs).2 = [.renameAgent "a.md" false] ∧
    (applyOps fixAgentFs ((toggleAgent "a.md" true fixAgentFs).2)).backups = [] ∧
    (applyOps fixAgentFs ((toggleAgent "a.md" true fixAgentFs).2)).agentsActive = ["a.md"] ∧
    (enableMcp "user:bbb" fixConflictFs).2 = [] := by
  decide

/-- Witness for C6 (amended) at a successful user-level disable. -/
theorem backup_before_write_policy_witness :
    (disableMcp "memory" .user none fixActiveFs).2 ≠ [] ∧
    (∃ d rest, (disableMcp "memory" .user none fixActiveFs).2 =
      .backupOp (disableBackupPath .user) d :: rest ∧
      rest.all (fun op => op.isAtomicWrite) = true) :=
  ⟨by decide, backup_before_write_policy.1 fixActiveFs "memory" .user none (by decide)⟩

/-! ### C8 — restore validates, snapshots, then raw-copies -/

/-- C8 (amended): `restoreBackup` checks that the backup copy and its sidecar
exist and that the backup bytes parse as JSON (rejecting without any effect
otherwise), then snapshots the current live file, and then overwrites the
live path with a direct `fs.copyFileSync` — a raw copy, not the
temp-file-plus-rename atomic write path: its effect list contains no
`writeJsonFileAtomic` call. -/
theorem restore_semantics :
    ∀ (s : FsState) (b : String) (t : Nat) (bf : BackupFile) (mt : BackupMeta),
      s.backups.find? (fun e => decide (e.base = b) && decide (e.stamp = t)) = some bf →
      s.backupMetas.find? (fun m => decide (m.base = b) && decide (m.stamp = t)) = some mt →
      (bf.bytes.parses = false →
        (restoreBackup b t s).1.success = false ∧ (restoreBackup b t s).2 = []) ∧
      (bf.bytes.parses = true →
        (restoreBackup b t s).1.success = true ∧
        (restoreBackup b t s).2 =
          [.backupOp mt.originalPath ("Before restoring backup from " ++ toString mt.createdAt),
           .rawCopyTo mt.originalPath bf.bytes] ∧
        (restoreBackup b t s).2.all (fun op => !op.isAtomicWrite) = true) := by
  intro s b t bf mt hbf hmt
  simp only [restoreBackup]
  rw [hbf]
  dsimp only
  rw [hmt]
  dsimp only
  constructor
  · intro hp
    rw [hp]
    exact ⟨rfl, rfl⟩
  · intro hp
    rw [hp]
    exact ⟨rfl, rfl, rfl⟩

/-- C8 counterexample: at a concrete state the restore succeeds and its
effect list contains the raw copy but no atomic write — the backup is not
written through the temp-file-plus-rename path the claim requires. -/
theorem restore_not_atomic_cx :
    (restoreBackup ".claude.json" 3 fixRestoreFs).1.success = true ∧
    (restoreBackup ".claude.json" 3 fixRestoreFs).2.any (fun op => op.isAtomicWrite) = false ∧
    (restoreBackup ".claude.json" 3 fixRestoreFs).2.any (fun op => op.isRawCopy) = true ∧
    (restoreBackup ".claude.json" 3 fixRestoreFs).2.head?
      = some (.backupOp .claudeJsonP "Before restoring backup from 3") := by
  decide

/-- Witness for C8 (amended) at the concrete state `fixRestoreFs`. -/
theorem restore_semantics_witness :
    fixRestoreFs.backups.find?
      (fun e => decide (e.base = ".claude.json") && decide (e.stamp = 3)) =
        some ⟨".claude.json", 3, .claudeDoc { mcpServers := some [("x", fixCfg)] }⟩ ∧
    (restoreBackup ".claude.json" 3 fixRestoreFs).1.success = true ∧
    (restoreBackup ".claude.json" 3 fixRestoreFs).2.all (fun op => !op.isAtomicWrite) = true := by
  have h := restore_semantics fixRestoreFs ".claude.json" 3
    ⟨".claude.json", 3, .claudeDoc { mcpServers := some [("x", fixCfg)] }⟩
    ⟨".claude.json", 3, .claudeJsonP, 3, "manual"⟩ (by decide) (by decide)
  have h2 := h.2 (by decide)
  exact ⟨by decide, h2.1, h2.2.2⟩

/-! ### C5 — bulk toggle error reporting -/

theorem toggleAllGo_error_shape (e : Bool) (L : List MCPServer) :
    ∀ (s : FsState) (res : ToggleAllResult × FsState), toggleAllGo e L s = res →
      res.1.success = false →
      res.1.error = some typeErrorMsg ∨
      ∃ n m, res.1.error = some ("Failed to toggle " ++ n ++ ": " ++ m) := by
  induction L with
  | nil =>
    intro s res heq hfail
    rw [← heq] at hfail
    simp [toggleAllGo] at hfail
  | cons mcp rest ih =>
    intro s res heq hfail
    simp only [toggleAllGo] at heq
    split at heq
    · split at heq
      · rw [← heq] at hfail ⊢
        left
        rfl
      · split at heq
        · split at heq
          · exact ih _ res heq hfail
          · rw [← heq] at hfail ⊢
            right
            exact ⟨mcp.name, _, rfl⟩
        · exact ih _ res heq hfail
    · split at heq
      · split at heq
        · exact ih _ res heq hfail
        · rw [← heq] at hfail ⊢
          right
          exact ⟨mcp.name, _, rfl⟩
      · exact ih _ res heq hfail

theorem toggleAll_error_shape_aux (e : Bool) (s : FsState)
    (res : ToggleAllResult × FsState) (heq : toggleAllMcps e s = res)
    (hfail : res.1.success = false) :
    res.1.error = some typeErrorMsg ∨
    ∃ n m, res.1.error = some ("Failed to toggle " ++ n ++ ": " ++ m) := by
  simp only [toggleAllMcps] at heq
  split at heq
  · rw [← heq] at hfail
    simp at hfail
  · exact toggleAllGo_error_shape e _ s res heq hfail

/-- C5 (amended): the bulk toggle applies the single-item transition
sequentially in the loaded (name-sorted) order and stops at the first
failure; the result is only `{success, error?, requiresRestart?}` — on
failure the error names the single first-failing item and its cause (or is a
raw exception message when the archive file is malformed); there are no
`succeededNames`/`failedNames` lists.  Items processed before the failure
keep their new state (no rollback) and eligible items after the failing one
are left unprocessed, as the concrete scenario shows: `aaa` stays enabled,
`bbb` fails, `ccc` stays archived. -/
theorem toggleAll_first_failure_reporting :
    (∀ (e : Bool) (s : FsState),
      (toggleAllMcps e s).1.success = false →
      (toggleAllMcps e s).1.error = some typeErrorMsg ∨
      ∃ n m, (toggleAllMcps e s).1.error = some ("Failed to toggle " ++ n ++ ": " ++ m)) ∧
    (toggleAllMcps true fixBulkFs).1.success = false ∧
    inActive ((toggleAllMcps true fixBulkFs).2) .userR "aaa" = true ∧
    inArchive ((toggleAllMcps true fixBulkFs).2) "user:aaa" = false ∧
    inArchive ((toggleAllMcps true fixBulkFs).2) "user:ccc" = true ∧
    inActive ((toggleAllMcps true fixBulkFs).2) .userR "ccc" = false := by
  refine ⟨?_, by decide, by decide, by decide, by decide, by decide⟩
  intro e s h
  exact toggleAll_error_shape_aux e s _ rfl h

/-- C5 counterexample: with `aaa`, `bbb`, `ccc` archived and `bbb` also live,
bulk enable fails with an error naming only `bbb`, returns no per-item
success/failure lists (the result carries a single optional error string),
and the eligible item `ccc` never receives its transition — it is still
archived and not live afterwards — refuting the claim that the transition is
applied independently to each eligible item with succeededNames/failedNames
reporting. -/
theorem toggleAll_aborts_cx :
    (toggleAllMcps true fixBulkFs).1.success = false ∧
    (toggleAllMcps true fixBulkFs).1.error =
      some "Failed to toggle bbb: MCP \"bbb\" already exists in user config" ∧
    (toggleAllMcps true fixBulkFs).1.requiresRestart = none ∧
    inArchive ((toggleAllMcps true fixBulkFs).2) "user:ccc" = true ∧
    inActive ((toggleAllMcps true fixBulkFs).2) .userR "ccc" = false ∧
    inActive ((toggleAllMcps true fixBulkFs).2) .userR "aaa" = true := by
  decide

/-- Witness for C5 (amended) at the concrete partially-failing bulk enable. -/
theorem toggleAll_first_failure_reporting_witness :
    (toggleAllMcps true fixBulkFs).1.success = false ∧
    ((toggleAllMcps true fixBulkFs).1.error = some typeErrorMsg ∨
     ∃ n m, (toggleAllMcps true fixBulkFs).1.error =
       some ("Failed to toggle " ++ n ++ ": " ++ m)) :=
  ⟨by decide, toggleAll_first_failure_reporting.1 true fixBulkFs (by decide)⟩

theorem readJsonFileD_wellFormed {α : Type} (v : α) (d : α) :
    readJsonFileD (.wellFormed v) d = v := rfl

/-! ### C2 — disable / enable round trip -/

theorem round_trip_user (s : FsState) (n : String)
    (hdr : (disabledObj s).isSome = true)
    (h : inActive s .userR n = true) :
    (disableMcp n .user none s).1.success = true ∧
    (enableMcp ("user:" ++ n) (applyOps s ((disableMcp n .user none s).2))).1.success = true ∧
    claudeEquiv
      (applyOps (applyOps s ((disableMcp n .user none s).2))
        ((enableMcp ("user:" ++ n) (applyOps s ((disableMcp n .user none s).2))).2)) s ∧
    mcpEquiv
      (applyOps (applyOps s ((disableMcp n .user none s).2))
        ((enableMcp ("user:" ++ n) (applyOps s ((disableMcp n .user none s).2))).2)) s ∧
    inArchive
      (applyOps (applyOps s ((disableMcp n .user none s).2))
        ((enableMcp ("user:" ++ n) (applyOps s ((disableMcp n .user none s).2))).2))
      ("user:" ++ n) = false := by
  obtain ⟨dl, hdl⟩ := Option.isSome_iff_exists.mp hdr
  have hc := h
  simp only [inActive, activeLookup] at hc
  obtain ⟨c, hc⟩ := Option.isSome_iff_exists.mp hc
  simp only [disabledObj] at hdl
  simp only [disableMcp]
  rw [hc]
  try dsimp only
  rw [hdl]
  try dsimp only
  refine ⟨rfl, ?_⟩
  simp only [applyOps, List.foldl, applyPrim]
  simp only [enableMcp]
  simp only [readJsonFileD_wellFormed]
  try dsimp only
  rw [objGet_set_self]
  try dsimp only
  rw [stripFirst_append "user:" n]
  simp only [Option.getD_some]
  rw [objGet_del_self]
  simp only [Option.isSome_none, Bool.false_eq_true, if_false]
  try dsimp only
  refine ⟨trivial, ?_, ?_, ?_⟩
  · simp only [List.foldl, applyPrim]
    constructor
    · intro m
      simp only [activeLookup, readJsonFileD_wellFormed]
      exact objGet_set_del_round n c _ hc m
    · intro pp m
      simp only [activeLookup, readJsonFileD_wellFormed]
  · simp only [List.foldl, applyPrim]
    intro m
    simp only [activeLookup]
    rw [createBackup_mcpFile]
    try dsimp only
    rw [createBackup_mcpFile]
  · simp only [List.foldl, applyPrim]
    simp only [inArchive, archiveLookup, disabledObj, readJsonFileD_wellFormed]
    rw [objGet_del_self]
    rfl

theorem claudeEquiv_of_claudeFile {s₁ s₂ : FsState} (h : s₁.claudeFile = s₂.claudeFile) :
    claudeEquiv s₁ s₂ := by
  constructor
  · intro m
    simp [activeLookup, h]
  · intro pp m
    simp [activeLookup, h]

theorem mcpEquiv_of_mcpFile {s₁ s₂ : FsState} (h : s₁.mcpFile = s₂.mcpFile) :
    mcpEquiv s₁ s₂ := by
  intro m
  simp [activeLookup, h]

theorem round_trip_mcpjson (s : FsState) (n : String)
    (hdr : (disabledObj s).isSome = true)
    (h : inActive s .mcpR n = true) :
    (disableMcp n .mcpJsonSrc none s).1.success = true ∧
    (enableMcp ("mcpjson:" ++ n) (applyOps s ((disableMcp n .mcpJsonSrc none s).2))).1.success = true ∧
    claudeEquiv
      (applyOps (applyOps s ((disableMcp n .mcpJsonSrc none s).2))
        ((enableMcp ("mcpjson:" ++ n) (applyOps s ((disableMcp n .mcpJsonSrc none s).2))).2)) s ∧
    mcpEquiv
      (applyOps (applyOps s ((disableMcp n .mcpJsonSrc none s).2))
        ((enableMcp ("mcpjson:" ++ n) (applyOps s ((disableMcp n .mcpJsonSrc none s).2))).2)) s ∧
    inArchive
      (applyOps (applyOps s ((disableMcp n .mcpJsonSrc none s).2))
        ((enableMcp ("mcpjson:" ++ n) (applyOps s ((disableMcp n .mcpJsonSrc none s).2))).2))
      ("mcpjson:" ++ n) = false := by
  obtain ⟨dl, hdl⟩ := Option.isSome_iff_exists.mp hdr
  have hc := h
  simp only [inActive, activeLookup] at hc
  obtain ⟨c, hc⟩ := Option.isSome_iff_exists.mp hc
  simp only [disabledObj] at hdl
  simp only [disableMcp]
  rw [hc]
  try dsimp only
  rw [hdl]
  try dsimp only
  refine ⟨rfl, ?_⟩
  simp only [applyOps, List.foldl, applyPrim]
  simp only [enableMcp]
  simp only [readJsonFileD_wellFormed]
  try dsimp only
  rw [objGet_set_self]
  try dsimp only
  rw [stripFirst_append "mcpjson:" n]
  rw [objGet_del_self]
  simp only [Option.isSome_none, Bool.false_eq_true, if_false]
  try dsimp only
  refine ⟨trivial, ?_, ?_, ?_⟩
  · apply claudeEquiv_of_claudeFile
    simp only [List.foldl, applyPrim]
    rw [createBackup_claudeFile]
    try dsimp only
    rw [createBackup_claudeFile]
  · simp only [List.foldl, applyPrim]
    intro m
    simp only [activeLookup, readJsonFileD_wellFormed]
    exact objGet_set_del_round n c _ hc m
  · simp only [List.foldl, applyPrim]
    simp only [inArchive, archiveLookup, disabledObj, readJsonFileD_wellFormed]
    rw [objGet_del_self]
    rfl

theorem round_trip_local (s : FsState) (pp n : String)
    (hcol : ∀ ch ∈ n.data, ch ≠ ':')
    (hdr : (disabledObj s).isSome = true)
    (h : inActive s (.localR pp) n = true) :
    (disableMcp n .localSrc (some pp) s).1.success = true ∧
    (enableMcp ("local:" ++ pp ++ ":" ++ n) (applyOps s ((disableMcp n .localSrc (some pp) s).2))).1.success = true ∧
    claudeEquiv
      (applyOps (applyOps s ((disableMcp n .localSrc (some pp) s).2))
        ((enableMcp ("local:" ++ pp ++ ":" ++ n) (applyOps s ((disableMcp n .localSrc (some pp) s).2))).2)) s ∧
    mcpEquiv
      (applyOps (applyOps s ((disableMcp n .localSrc (some pp) s).2))
        ((enableMcp ("local:" ++ pp ++ ":" ++ n) (applyOps s ((disableMcp n .localSrc (some pp) s).2))).2)) s ∧
    inArchive
      (applyOps (applyOps s ((disableMcp n .localSrc (some pp) s).2))
        ((enableMcp ("local:" ++ pp ++ ":" ++ n) (applyOps s ((disableMcp n .localSrc (some pp) s).2))).2))
      ("local:" ++ pp ++ ":" ++ n) = false := by
  obtain ⟨dl, hdl⟩ := Option.isSome_iff_exists.mp hdr
  have hc := h
  simp only [inActive, activeLookup] at hc
  cases hpc : objGet pp ((readJsonFileD s.claudeFile {}).projects.getD []) with
  | none =>
    rw [hpc] at hc
    simp at hc
  | some pc =>
    rw [hpc] at hc
    dsimp only at hc
    obtain ⟨c, hc⟩ := Option.isSome_iff_exists.mp hc
    simp only [disabledObj] at hdl
    simp only [disableMcp]
    rw [hpc]
    simp only [Option.getD_some]
    rw [hc]
    try dsimp only
    rw [hdl]
    try dsimp only
    refine ⟨rfl, ?_⟩
    simp only [applyOps, List.foldl, applyPrim]
    simp only [enableMcp]
    simp only [readJsonFileD_wellFormed]
    try dsimp only
    rw [objGet_set_self]
    try dsimp only
    rw [lastPart_append_colon ("local:" ++ pp) n hcol]
    simp only [Option.getD_some]
    rw [objGet_set_self]
    simp only [Option.getD_some]
    rw [objGet_del_self]
    simp only [Option.isSome_none, Bool.false_eq_true, if_false]
    try dsimp only
    refine ⟨trivial, ?_, ?_, ?_⟩
    · simp only [List.foldl, applyPrim]
      constructor
      · intro m
        simp only [activeLookup, readJsonFileD_wellFormed]
      · intro q m
        simp only [activeLookup, readJsonFileD_wellFormed]
        simp only [Option.getD_some]
        by_cases hq : q = pp
        · subst hq
          rw [objGet_set_self, hpc]
          dsimp only
          simp only [Option.getD_some]
          exact objGet_set_del_round n c _ hc m
        · rw [objGet_set_ne hq, objGet_set_ne hq]
    · apply mcpEquiv_of_mcpFile
      simp only [List.foldl, applyPrim]
      rw [createBackup_mcpFile]
      try dsimp only
      rw [createBackup_mcpFile]
    · simp only [List.foldl, applyPrim]
      simp only [inArchive, archiveLookup, disabledObj, readJsonFileD_wellFormed]
      rw [objGet_del_self]
      rfl

/-- C2 (amended): for every item live in an active source — any user-level or
mcp.json item, and any project-local item whose name contains no colon —
disabling it and then enabling its archive key succeeds and returns both
active stores to a state extensionally equal (equal lookups for every key,
i.e. equal content modulo JSON key ordering) to the state before the
disable, and leaves the disabled archive without an entry for the item.  (For
a local item whose name contains a colon the round trip re-enables the
payload under the substring after the last colon instead, see the
counterexample.)  The archive file is assumed readable in the code's sense:
the parsed disabled document has its `disabled` field (true whenever the file
is absent, malformed, or well-formed with a `disabled` object). -/
theorem disable_enable_round_trip :
    ∀ (s : FsState) (r : ActiveRef) (n : String),
      (∀ pp, r = .localR pp → ∀ ch ∈ n.data, ch ≠ ':') →
      (disabledObj s).isSome = true →
      inActive s r n = true →
      (disableMcp n r.src r.pp s).1.success = true ∧
      (enableMcp (archiveKey r n) (applyOps s ((disableMcp n r.src r.pp s).2))).1.success = true ∧
      claudeEquiv
        (applyOps (applyOps s ((disableMcp n r.src r.pp s).2))
          ((enableMcp (archiveKey r n) (applyOps s ((disableMcp n r.src r.pp s).2))).2)) s ∧
      mcpEquiv
        (applyOps (applyOps s ((disableMcp n r.src r.pp s).2))
          ((enableMcp (archiveKey r n) (applyOps s ((disableMcp n r.src r.pp s).2))).2)) s ∧
      inArchive
        (applyOps (applyOps s ((disableMcp n r.src r.pp s).2))
          ((enableMcp (archiveKey r n) (applyOps s ((disableMcp n r.src r.pp s).2))).2))
        (archiveKey r n) = false := by
  intro s r n hcol hdr h
  cases r with
  | userR => exact round_trip_user s n hdr h
  | localR pp => exact round_trip_local s pp n (hcol pp rfl) hdr h
  | mcpR => exact round_trip_mcpjson s n hdr h

/-- C2 counterexample: the project-local item `a:b` does not survive the
round trip.  `enableMcp` derives the destination name as the last
colon-separated segment of the archive key `local:/p:a:b`, so after
disable-then-enable the payload sits under the truncated name `b` and the
original name `a:b` is gone from the active store — the active store is not
equivalent to its pre-disable state, refuting the claim for this item. -/
theorem round_trip_colon_cx :
    (disableMcp "a:b" .localSrc (some "/p") fixColonFs).1.success = true ∧
    (enableMcp "local:/p:a:b"
      (applyOps fixColonFs ((disableMcp "a:b" .localSrc (some "/p") fixColonFs).2))).1.success = true ∧
    activeLookup (.localR "/p") "a:b" fixColonFs = some fixCfg ∧
    activeLookup (.localR "/p") "a:b"
      (applyOps (applyOps fixColonFs ((disableMcp "a:b" .localSrc (some "/p") fixColonFs).2))
        ((enableMcp "local:/p:a:b"
          (applyOps fixColonFs ((disableMcp "a:b" .localSrc (some "/p") fixColonFs).2))).2)) = none ∧
    activeLookup (.localR "/p") "b"
      (applyOps (applyOps fixColonFs ((disableMcp "a:b" .localSrc (some "/p") fixColonFs).2))
        ((enableMcp "local:/p:a:b"
          (applyOps fixColonFs ((disableMcp "a:b" .localSrc (some "/p") fixColonFs).2))).2)) = some fixCfg := by
  decide

/-- Witness for C2 (amended) at the user-level item `memory`. -/
theorem disable_enable_round_trip_witness :
    (disabledObj fixActiveFs).isSome = true ∧
    inActive fixActiveFs .userR "memory" = true ∧
    (disableMcp "memory" ActiveRef.userR.src ActiveRef.userR.pp fixActiveFs).1.success = true ∧
    inArchive
      (applyOps (applyOps fixActiveFs ((disableMcp "memory" ActiveRef.userR.src ActiveRef.userR.pp fixActiveFs).2))
        ((enableMcp (archiveKey .userR "memory")
          (applyOps fixActiveFs ((disableMcp "memory" ActiveRef.userR.src ActiveRef.userR.pp fixActiveFs).2))).2))
      (archiveKey .userR "memory") = false := by
  have h := disable_enable_round_trip fixActiveFs .userR "memory"
    (fun pp hp => nomatch hp) (by decide) (by decide)
  exact ⟨by decide, by decide, h.1, h.2.2.2.2⟩

/-! ### C4 — dedup between the primary and the supplementary source -/

theorem strApp_left_cancel {p a b : String} (h : p ++ a = p ++ b) : a = b := by
  have hd : p.data ++ a.data = p.data ++ b.data := by
    rw [← String.data_append, ← String.data_append, h]
  have := List.append_cancel_left hd
  calc a = String.mk a.data := rfl
    _ = String.mk b.data := by rw [this]
    _ = b := rfl

theorem objGet_mem {α : Type} {n : String} {c : α} {l : ObjList α}
    (h : objGet n l = some c) : (n, c) ∈ l := by
  induction l with
  | nil => cases h
  | cons p t ih =>
    by_cases hk : p.1 = n
    · have h2 : p.2 = c := by simpa [objGet, hk] using h
      refine List.mem_cons.mpr (Or.inl ?_)
      cases p
      simp_all
    · have h2 : objGet n t = some c := by simpa [objGet, hk] using h
      exact List.mem_cons_of_mem _ (ih h2)

theorem mem_objSet {α : Type} (k : String) (v : α) (m : ObjList α) :
    ∀ kv ∈ objSet k v m, kv = (k, v) ∨ kv ∈ m := by
  unfold objSet
  split
  · intro kv hkv
    obtain ⟨p, hp, hmap⟩ := List.mem_map.mp hkv
    by_cases hpk : p.1 = k
    · left
      rw [← hmap, if_pos hpk]
    · right
      rw [← hmap, if_neg hpk]
      exact hp
  · intro kv hkv
    rcases List.mem_append.mp hkv with h1 | h2
    · right
      exact h1
    · left
      simpa using h2

theorem objGet_isSome_objSet {α : Type} (k k' : String) (v : α) (m : ObjList α)
    (h : (objGet k' m).isSome = true) : (objGet k' (objSet k v m)).isSome = true := by
  by_cases hk : k' = k
  · subst hk
    rw [objGet_set_self]
    rfl
  · rw [objGet_set_ne hk]
    exact h

theorem user_prefix_false_of_l (t : List Char) :
    "user:".data.isPrefixOf ('l' :: t) = false := rfl

theorem user_prefix_false_of_m (t : List Char) :
    "user:".data.isPrefixOf ('m' :: t) = false := rfl

theorem user_prefix_false_of_d (t : List Char) :
    "user:".data.isPrefixOf ('d' :: t) = false := rfl

theorem filter_values_mapReplace (P : MCPServer → Bool) (k : String) (v : MCPServer)
    (m : ObjList MCPServer) (hv : P v = false)
    (hkey : ∀ kv ∈ m, kv.1 = k → P kv.2 = false) :
    (((m.map (fun p => if p.1 = k then (k, v) else p)).map Prod.snd).filter P)
      = ((m.map Prod.snd).filter P) := by
  induction m with
  | nil => rfl
  | cons p t ih =>
    have ih' := ih (fun kv hkv hk1 => hkey kv (List.mem_cons_of_mem _ hkv) hk1)
    simp only [List.map_cons]
    by_cases hpk : p.1 = k
    · rw [if_pos hpk]
      have hp2 : P p.2 = false := hkey p (List.mem_cons_self p t) hpk
      simp only [List.map_cons, List.filter_cons, hv, hp2]
      exact ih'
    · rw [if_neg hpk]
      simp only [List.map_cons, List.filter_cons]
      rw [ih']

theorem filter_values_objSet_notP (P : MCPServer → Bool) (k : String) (v : MCPServer)
    (m : ObjList MCPServer) (hv : P v = false)
    (hkey : ∀ kv ∈ m, kv.1 = k → P kv.2 = false) :
    (((objSet k v m).map Prod.snd).filter P) = ((m.map Prod.snd).filter P) := by
  unfold objSet
  split
  · exact filter_values_mapReplace P k v m hv hkey
  · simp [List.filter_append, hv]

theorem fold_preserves_inv {β : Type} (f : ObjList MCPServer → β → ObjList MCPServer)
    (Inv : ObjList MCPServer → Prop)
    (hstep : ∀ m x, Inv m → Inv (f m x)) :
    ∀ (l : List β) (m : ObjList MCPServer), Inv m → Inv (l.foldl f m) := by
  intro l
  induction l with
  | nil => intro m h; exact h
  | cons x t ih =>
    intro m h
    exact ih _ (hstep m x h)

theorem isSome_false_eq_none {α : Type} {o : Option α} (h : o.isSome = false) : o = none := by
  cases o with
  | none => rfl
  | some v => simp at h

theorem loadStepUser_eq (l : ObjList MCPConfig) :
    ∀ (m : ObjList MCPServer),
      (∀ nc ∈ l, (objGet ("user:" ++ nc.1) m).isSome = false) →
      (l.map Prod.fst).Nodup →
      loadStepUser l m = m ++ l.map (fun nc => ("user:" ++ nc.1, mkUserEntry nc.1 nc.2)) := by
  induction l with
  | nil =>
    intro m _ _
    simp [loadStepUser]
  | cons nc t ih =>
    intro m hfresh hnod
    simp only [List.map_cons, List.nodup_cons] at hnod
    have hf : (objGet ("user:" ++ nc.1) m).isSome = false := hfresh nc (List.mem_cons_self nc t)
    have hset : objSet ("user:" ++ nc.1) (mkUserEntry nc.1 nc.2) m
        = m ++ [("user:" ++ nc.1, mkUserEntry nc.1 nc.2)] := by
      unfold objSet
      rw [if_neg (by simp [hf])]
    have hstep : loadStepUser (nc :: t) m
        = loadStepUser t (objSet ("user:" ++ nc.1) (mkUserEntry nc.1 nc.2) m) := rfl
    rw [hstep, hset]
    have hfresh' : ∀ nc' ∈ t,
        (objGet ("user:" ++ nc'.1) (m ++ [("user:" ++ nc.1, mkUserEntry nc.1 nc.2)])).isSome = false := by
      intro nc' hnc'
      rw [objGet_append_one]
      rw [isSome_false_eq_none (hfresh nc' (List.mem_cons_of_mem _ hnc'))]
      have hne : nc.1 ≠ nc'.1 := by
        intro he
        apply hnod.1
        rw [he]
        exact List.mem_map_of_mem Prod.fst hnc'
      have hne2 : ¬ ("user:" ++ nc.1 = "user:" ++ nc'.1) :=
        fun hh => hne (strApp_left_cancel hh)
      simp [hne2]
    rw [ih _ hfresh' hnod.2]
    simp

theorem objGet_user_mapped (n : String) (c : MCPConfig) (l : ObjList MCPConfig)
    (hg : objGet n l = some c) :
    objGet ("user:" ++ n) (l.map (fun nc => ("user:" ++ nc.1, mkUserEntry nc.1 nc.2)))
      = some (mkUserEntry n c) := by
  induction l with
  | nil => cases hg
  | cons p t ih =>
    simp only [List.map_cons]
    by_cases hk : p.1 = n
    · have h2 : p.2 = c := by simpa [objGet, hk] using hg
      simp [objGet, hk, h2]
    · have h2 : objGet n t = some c := by simpa [objGet, hk] using hg
      have hne : ¬ ("user:" ++ p.1 = "user:" ++ n) := fun hh => hk (strApp_left_cancel hh)
      simp only [objGet, hne, if_neg]
      simpa using ih h2

theorem filter_user_mapped (n : String) (c : MCPConfig) (l : ObjList MCPConfig)
    (hnod : (l.map Prod.fst).Nodup) (hg : objGet n l = some c) :
    (((l.map (fun nc => ("user:" ++ nc.1, mkUserEntry nc.1 nc.2))).map Prod.snd).filter (PDedup n))
      = [mkUserEntry n c] := by
  induction l with
  | nil => cases hg
  | cons p t ih =>
    simp only [List.map_cons, List.nodup_cons] at hnod
    simp only [List.map_cons, List.filter_cons]
    by_cases hk : p.1 = n
    · have h2 : p.2 = c := by simpa [objGet, hk] using hg
      have hP : PDedup n (mkUserEntry p.1 p.2) = true := by
        simp [PDedup, mkUserEntry, hk]
      have htail : ((t.map (fun nc => ("user:" ++ nc.1, mkUserEntry nc.1 nc.2))).map Prod.snd).filter (PDedup n) = [] := by
        rw [List.filter_eq_nil_iff]
        intro v hv
        obtain ⟨kv, hkv, hkveq⟩ := List.mem_map.mp hv
        obtain ⟨nc, hnc, hnceq⟩ := List.mem_map.mp hkv
        intro hPv
        have hname : v.name = n := by
          simp only [PDedup, Bool.and_eq_true, decide_eq_true_eq] at hPv
          exact hPv.1
        have hvn : v.name = nc.1 := by
          rw [← hkveq, ← hnceq]
          rfl
        apply hnod.1
        rw [hk] at *
        rw [← hname, hvn] at *
        exact List.mem_map_of_mem Prod.fst hnc
      rw [hP, if_pos rfl, htail, hk, h2]
    · have h2 : objGet n t = some c := by simpa [objGet, hk] using hg
      have hP : PDedup n (mkUserEntry p.1 p.2) = false := by
        simp [PDedup, mkUserEntry, hk]
      rw [hP, if_neg (by simp)]
      exact ih hnod.2 h2

theorem dedupInv_step_local (n : String) (c₁ : MCPConfig) (pj : ObjList ProjectConfig) :
    ∀ m, DedupInv n c₁ m → DedupInv n c₁ (loadStepLocal pj m) := by
  unfold loadStepLocal
  refine fold_preserves_inv _ (DedupInv n c₁) ?_ pj
  intro m pppc hInv
  refine fold_preserves_inv _ (DedupInv n c₁) ?_ _ m hInv
  intro m' nc hInv'
  obtain ⟨h1, h2, h3⟩ := hInv'
  have hkeypre : "user:".data.isPrefixOf ("local:" ++ pppc.1 ++ ":" ++ nc.1).data = false := by
    rw [String.data_append, String.data_append, String.data_append]
    exact user_prefix_false_of_l _
  have hv : PDedup n (mkLocalEntry pppc.1 nc.1 nc.2) = false := by
    simp [PDedup, mkLocalEntry]
  refine ⟨?_, ?_, ?_⟩
  · rw [filter_values_objSet_notP _ _ _ _ hv ?hkey]
    · exact h1
    case hkey =>
      intro kv hkv hk1
      by_cases hP : PDedup n kv.2 = true
      · exfalso
        have hpre := h3 kv hkv hP
        rw [hk1, hkeypre] at hpre
        cases hpre
      · simpa using hP
  · exact objGet_isSome_objSet _ _ _ _ h2
  · intro kv hkv hP
    rcases mem_objSet _ _ _ kv hkv with heq | hmem
    · exfalso
      rw [heq] at hP
      simp only at hP
      rw [hv] at hP
      cases hP
    · exact h3 kv hmem hP

theorem dedupInv_step_mcpjson (n : String) (c₁ : MCPConfig) (l : ObjList MCPConfig) :
    ∀ m, DedupInv n c₁ m → DedupInv n c₁ (loadStepMcpJson l m) := by
  unfold loadStepMcpJson
  refine fold_preserves_inv _ (DedupInv n c₁) ?_ l
  intro m nc hInv
  obtain ⟨h1, h2, h3⟩ := hInv
  by_cases hcond : (objGet ("user:" ++ nc.1) m).isSome = true
  · rw [if_pos hcond]
    exact ⟨h1, h2, h3⟩
  · rw [if_neg hcond]
    have hne : nc.1 ≠ n := fun he => hcond (by rw [he]; exact h2)
    have hv : PDedup n (mkMcpJsonEntry nc.1 nc.2) = false := by
      simp [PDedup, mkMcpJsonEntry, hne]
    have hkeypre : "user:".data.isPrefixOf ("mcpjson:" ++ nc.1).data = false := by
      rw [String.data_append]
      exact user_prefix_false_of_m _
    refine ⟨?_, ?_, ?_⟩
    · rw [filter_values_objSet_notP _ _ _ _ hv ?hkey2]
      · exact h1
      case hkey2 =>
        intro kv hkv hk1
        by_cases hP : PDedup n kv.2 = true
        · exfalso
          have hpre := h3 kv hkv hP
          rw [hk1, hkeypre] at hpre
          cases hpre
        · simpa using hP
    · exact objGet_isSome_objSet _ _ _ _ h2
    · intro kv hkv hP
      rcases mem_objSet _ _ _ kv hkv with heq | hmem
      · exfalso
        rw [heq] at hP
        simp only at hP
        rw [hv] at hP
        cases hP
      · exact h3 kv hmem hP

theorem user_prefix_false_disabledKey (k : String) (e : DisabledMCPEntry) :
    "user:".data.isPrefixOf (disabledMapKey k e).data = false := by
  simp only [disabledMapKey]
  cases e.source with
  | localSrc =>
    rw [String.data_append, String.data_append, String.data_append]
    exact user_prefix_false_of_d _
  | user =>
    rw [String.data_append, String.data_append, String.data_append]
    exact user_prefix_false_of_d _
  | mcpJsonSrc =>
    rw [String.data_append, String.data_append, String.data_append]
    exact user_prefix_false_of_d _

theorem dedupInv_step_disabled (n : String) (c₁ : MCPConfig) (dl : ObjList DisabledMCPEntry) :
    ∀ m, DedupInv n c₁ m → DedupInv n c₁ (loadStepDisabled dl m) := by
  unfold loadStepDisabled
  refine fold_preserves_inv _ (DedupInv n c₁) ?_ dl
  intro m ke hInv
  obtain ⟨h1, h2, h3⟩ := hInv
  have hv : PDedup n (mkDisabledEntry ke.1 ke.2) = false := by
    simp [PDedup, mkDisabledEntry]
  refine ⟨?_, ?_, ?_⟩
  · rw [filter_values_objSet_notP _ _ _ _ hv ?hkey3]
    · exact h1
    case hkey3 =>
      intro kv hkv hk1
      by_cases hP : PDedup n kv.2 = true
      · exfalso
        have hpre := h3 kv hkv hP
        rw [hk1, user_prefix_false_disabledKey] at hpre
        cases hpre
      · simpa using hP
  · exact objGet_isSome_objSet _ _ _ _ h2
  · intro kv hkv hP
    rcases mem_objSet _ _ _ kv hkv with heq | hmem
    · exfalso
      rw [heq] at hP
      simp only at hP
      rw [hv] at hP
      cases hP
    · exact h3 kv hmem hP

theorem mem_insComparator {α : Type} (cmp : α → α → Ordering) (x a : α) (l : List α) :
    a ∈ insComparator cmp x l ↔ a = x ∨ a ∈ l := by
  induction l with
  | nil => simp [insComparator]
  | cons y ys ih =>
    unfold insComparator
    split
    · constructor
      · intro h
        rcases List.mem_cons.mp h with h1 | h2
        · exact Or.inl h1
        · exact Or.inr h2
      · intro h
        rcases h with h1 | h2
        · exact List.mem_cons.mpr (Or.inl h1)
        · exact List.mem_cons.mpr (Or.inr h2)
    · constructor
      · intro h
        rcases List.mem_cons.mp h with h1 | h2
        · exact Or.inr (List.mem_cons.mpr (Or.inl h1))
        · rcases ih.mp h2 with h3 | h4
          · exact Or.inl h3
          · exact Or.inr (List.mem_cons.mpr (Or.inr h4))
      · intro h
        rcases h with h1 | h2
        · exact List.mem_cons.mpr (Or.inr (ih.mpr (Or.inl h1)))
        · rcases List.mem_cons.mp h2 with h3 | h4
          · exact List.mem_cons.mpr (Or.inl h3)
          · exact List.mem_cons.mpr (Or.inr (ih.mpr (Or.inr h4)))

theorem countP_insComparator {α : Type} (cmp : α → α → Ordering) (P : α → Bool)
    (x : α) (l : List α) :
    (insComparator cmp x l).countP P = l.countP P + (if P x then 1 else 0) := by
  induction l with
  | nil => simp [insComparator, List.countP_cons]
  | cons y ys ih =>
    unfold insComparator
    split
    · simp [List.countP_cons]
    · simp only [List.countP_cons, ih]
      omega

theorem mem_sortStable_aux {α : Type} (cmp : α → α → Ordering) (a : α) :
    ∀ (l acc : List α),
      (a ∈ l.foldl (fun acc x => insComparator cmp x acc) acc ↔ a ∈ acc ∨ a ∈ l) := by
  intro l
  induction l with
  | nil => intro acc; simp
  | cons x xs ih =>
    intro acc
    simp only [List.foldl_cons]
    rw [ih]
    rw [mem_insComparator]
    constructor
    · intro h
      rcases h with (h1 | h2) | h3
      · exact Or.inr (List.mem_cons.mpr (Or.inl h1))
      · exact Or.inl h2
      · exact Or.inr (List.mem_cons.mpr (Or.inr h3))
    · intro h
      rcases h with h1 | h2
      · exact Or.inl (Or.inr h1)
      · rcases List.mem_cons.mp h2 with h3 | h4
        · exact Or.inl (Or.inl h3)
        · exact Or.inr h4

theorem mem_sortStable {α : Type} (cmp : α → α → Ordering) (l : List α) (a : α) :
    a ∈ sortStable cmp l ↔ a ∈ l := by
  unfold sortStable
  rw [mem_sortStable_aux]
  simp

theorem countP_sortStable_aux {α : Type} (cmp : α → α → Ordering) (P : α → Bool) :
    ∀ (l acc : List α),
      (l.foldl (fun acc x => insComparator cmp x acc) acc).countP P
        = acc.countP P + l.countP P := by
  intro l
  induction l with
  | nil => intro acc; simp
  | cons x xs ih =>
    intro acc
    simp only [List.foldl_cons]
    rw [ih, countP_insComparator]
    simp [List.countP_cons]
    omega

theorem countP_sortStable {α : Type} (cmp : α → α → Ordering) (P : α → Bool) (l : List α) :
    (sortStable cmp l).countP P = l.countP P := by
  unfold sortStable
  rw [countP_sortStable_aux]
  simp

theorem filter_sortStable_singleton {α : Type} (cmp : α → α → Ordering) (P : α → Bool)
    (l : List α) (u : α) (h : l.filter P = [u]) :
    (sortStable cmp l).filter P = [u] := by
  have hcnt : (sortStable cmp l).countP P = 1 := by
    rw [countP_sortStable, List.countP_eq_length_filter, h]
    rfl
  have hall : ∀ x ∈ sortStable cmp l, P x = true → x = u := by
    intro x hx hPx
    have hxl : x ∈ l := (mem_sortStable cmp l x).mp hx
    have hxf : x ∈ l.filter P := List.mem_filter.mpr ⟨hxl, hPx⟩
    rw [h] at hxf
    simpa using hxf
  have hlen : ((sortStable cmp l).filter P).length = 1 := by
    rw [← List.countP_eq_length_filter]
    exact hcnt
  cases hf : (sortStable cmp l).filter P with
  | nil =>
    rw [hf] at hlen
    cases hlen
  | cons a t =>
    rw [hf] at hlen
    simp only [List.length_cons, Nat.add_left_cancel_iff] at hlen
    have ht : t = [] := List.length_eq_zero.mp (by omega)
    have hamem : a ∈ (sortStable cmp l).filter P := by
      rw [hf]
      exact List.mem_cons_self a t
    have haP := List.mem_filter.mp hamem
    rw [ht, hall a haP.1 haP.2]

/-- C4 (amended): whenever a name exists in both the primary source
(top-level `mcpServers` of `~/.claude.json`) and the supplementary source
(`mcp.json`), `loadMCPs` returns exactly one entry for it among the
primary/supplementary entries — the user-level one with the primary payload —
regardless of whether the two payloads agree: the `mcp.json` occurrence is
suppressed purely by name (`!mcpMap.has('user:'+name)`). -/
theorem load_dedup_by_name :
    ∀ (s : FsState) (n : String) (c₁ c₂ : MCPConfig) (l₁ l₂ : ObjList MCPConfig),
      (readJsonFileD s.claudeFile {}).mcpServers = some l₁ →
      (readJsonFileD s.mcpFile { mcpServers := some [] }).mcpServers = some l₂ →
      (l₁.map Prod.fst).Nodup →
      objGet n l₁ = some c₁ →
      objGet n l₂ = some c₂ →
      (loadMCPs s).filter (PDedup n) = [mkUserEntry n c₁] := by
  intro s n c₁ c₂ l₁ l₂ hl₁ hl₂ hnod hg₁ hg₂
  have hInv1 : DedupInv n c₁ (loadStepUser l₁ []) := by
    rw [loadStepUser_eq l₁ [] (fun nc _ => rfl) hnod]
    refine ⟨?_, ?_, ?_⟩
    · rw [List.nil_append]
      exact filter_user_mapped n c₁ l₁ hnod hg₁
    · rw [List.nil_append, objGet_user_mapped n c₁ l₁ hg₁]
      rfl
    · intro kv hkv hP
      rw [List.nil_append] at hkv
      obtain ⟨nc, hnc, hnceq⟩ := List.mem_map.mp hkv
      rw [← hnceq]
      rw [String.data_append]
      exact isPrefixOf_append_self _ _
  have hInv4 := dedupInv_step_disabled n c₁
    ((readJsonFileD s.disabledFile { version := some 1, disabled := some [] }).disabled.getD []) _
    (dedupInv_step_mcpjson n c₁ l₂ _
      (dedupInv_step_local n c₁ ((readJsonFileD s.claudeFile {}).projects.getD []) _ hInv1))
  simp only [loadMCPs, hl₁, hl₂, Option.getD_some]
  exact filter_sortStable_singleton cmpMCP (PDedup n) _ _ hInv4.1

/-- C4 counterexample: `memory` exists in both sources with different
payloads, yet the loaded list contains exactly one entry named `memory` (the
user-level one) — not the two distinct entries the claim requires. -/
theorem load_dedup_cx :
    fixCfg ≠ fixCfg2 ∧
    (readJsonFileD fixDedupFs.claudeFile {}).mcpServers = some [("memory", fixCfg)] ∧
    (readJsonFileD fixDedupFs.mcpFile { mcpServers := some [] }).mcpServers
      = some [("memory", fixCfg2)] ∧
    (loadMCPs fixDedupFs).filter (fun v => decide (v.name = "memory"))
      = [mkUserEntry "memory" fixCfg] := by
  decide

/-- Witness for C4 (amended) at `fixDedupFs`. -/
theorem load_dedup_by_name_witness :
    objGet "memory" [("memory", fixCfg)] = some fixCfg ∧
    (loadMCPs fixDedupFs).filter (PDedup "memory") = [mkUserEntry "memory" fixCfg] := by
  have h := load_dedup_by_name fixDedupFs "memory" fixCfg fixCfg2
    [("memory", fixCfg)] [("memory", fixCfg2)]
    (by decide) (by decide) (by decide) (by decide) (by decide)
  exact ⟨by decide, h⟩

/-! ### C9: backup retention after repeated snapshots -/

theorem cmpBackupDesc_eq_lt (x y : BackupFile) (h : y.stamp < x.stamp) :
    cmpBackupDesc x y = .lt :=
  Nat.compare_eq_lt.mpr h

theorem insComparator_front (x : BackupFile) (acc : List BackupFile)
    (h : ∀ y ∈ acc, y.stamp < x.stamp) :
    insComparator cmpBackupDesc x acc = x :: acc := by
  cases acc with
  | nil => rfl
  | cons y ys =>
    unfold insComparator
    rw [if_pos (cmpBackupDesc_eq_lt x y (h y (List.mem_cons_self y ys)))]

theorem sortStable_desc_aux (l : List BackupFile) :
    ∀ acc : List BackupFile,
      (∀ x ∈ acc, ∀ y ∈ l, x.stamp < y.stamp) →
      l.Pairwise (fun a b => a.stamp < b.stamp) →
      l.foldl (fun acc x => insComparator cmpBackupDesc x acc) acc = l.reverse ++ acc := by
  induction l with
  | nil => intro acc _ _; simp
  | cons x xs ih =>
    intro acc hacc hpw
    simp only [List.foldl_cons]
    rw [insComparator_front x acc (fun y hy => hacc y hy x (List.mem_cons_self x xs))]
    have hacc' : ∀ z ∈ x :: acc, ∀ y ∈ xs, z.stamp < y.stamp := by
      intro z hz y hy
      rcases List.mem_cons.mp hz with h1 | h2
      · exact h1 ▸ (List.pairwise_cons.mp hpw).1 y hy
      · exact hacc z h2 y (List.mem_cons_of_mem x hy)
    rw [ih (x :: acc) hacc' (List.pairwise_cons.mp hpw).2]
    simp

theorem sortStable_of_ascending (l : List BackupFile)
    (h : l.Pairwise (fun a b => a.stamp < b.stamp)) :
    sortStable cmpBackupDesc l = l.reverse := by
  have := sortStable_desc_aux l [] (by intro x hx y hy; simp at hx) h
  simpa [sortStable] using this

theorem range_backups_pairwise (start m : Nat) (base : String) (b₀ : RawBytes) :
    ((List.range' start m).map (fun t => (⟨base, t, b₀⟩ : BackupFile))).Pairwise
      (fun a b => a.stamp < b.stamp) := by
  rw [List.pairwise_map]
  exact List.pairwise_lt_range' start m 1 (by omega)

theorem filter_base_range (start m : Nat) (base : String) (b₀ : RawBytes) :
    (((List.range' start m).map (fun t => (⟨base, t, b₀⟩ : BackupFile))).filter
        (fun e => e.base = base))
      = (List.range' start m).map (fun t => (⟨base, t, b₀⟩ : BackupFile)) := by
  apply List.filter_eq_self.mpr
  intro a ha
  rcases List.mem_map.mp ha with ⟨t, _, rfl⟩
  simp

theorem backups_range_concat (base : String) (b₀ : RawBytes) (start m : Nat) :
    (List.range' start m).map (fun t => (⟨base, t, b₀⟩ : BackupFile))
        ++ [(⟨base, start + m, b₀⟩ : BackupFile)]
      = (List.range' start (m+1)).map (fun t => (⟨base, t, b₀⟩ : BackupFile)) := by
  rw [List.range'_concat]
  simp

theorem pairs_range_concat (base : String) (start m : Nat) :
    (List.range' start m).map (fun t => (base, t)) ++ [(base, start + m)]
      = (List.range' start (m+1)).map (fun t => (base, t)) := by
  rw [List.range'_concat]
  simp

theorem map_filter_tup {β γ : Type} (tup : β → γ) (q : γ → Bool) (l : List β) :
    (l.filter (fun x => q (tup x))).map tup = (l.map tup).filter q := by
  induction l with
  | nil => rfl
  | cons x t ih =>
    simp only [List.filter_cons, List.map_cons]
    cases hq : q (tup x) <;> simp [hq, ih]

theorem bytesAt_cleanup (p : KnownPath) (b : String) (s : FsState) :
    bytesAt p (cleanupOldBackups b s) = bytesAt p s := by
  unfold cleanupOldBackups
  split <;> (cases p <;> rfl)

theorem cleanup_clock (b : String) (s : FsState) :
    (cleanupOldBackups b s).clock = s.clock := by
  unfold cleanupOldBackups
  split <;> rfl

theorem filter_drop_oldest (start m : Nat) (base : String) (b₀ : RawBytes) :
    (((⟨base, start, b₀⟩ : BackupFile)
          :: (List.range' (start+1) m).map (fun t => (⟨base, t, b₀⟩ : BackupFile))).filter
        (fun e => ¬ ([(⟨base, start, b₀⟩ : BackupFile)]).any
            (fun dd => dd.base = e.base ∧ dd.stamp = e.stamp)))
      = (List.range' (start+1) m).map (fun t => (⟨base, t, b₀⟩ : BackupFile)) := by
  rw [List.filter_cons]
  rw [if_neg (by simp)]
  apply List.filter_eq_self.mpr
  intro a ha
  rcases List.mem_map.mp ha with ⟨t, ht, rfl⟩
  have h1 : start + 1 ≤ t := (List.mem_range'_1.mp ht).1
  simp only [List.any_cons, List.any_nil, Bool.or_false, decide_eq_true_eq,
    Bool.not_eq_true', decide_eq_false_iff_not]
  intro hc
  omega

theorem filter_drop_oldest_pairs (start m : Nat) (base : String) (b₀ : RawBytes) :
    ((((base, start) : String × Nat)
          :: (List.range' (start+1) m).map (fun t => ((base, t) : String × Nat))).filter
        (fun pr => ¬ ([(⟨base, start, b₀⟩ : BackupFile)]).any
            (fun dd => dd.base = pr.1 ∧ dd.stamp = pr.2)))
      = (List.range' (start+1) m).map (fun t => ((base, t) : String × Nat)) := by
  rw [List.filter_cons]
  rw [if_neg (by simp)]
  apply List.filter_eq_self.mpr
  intro a ha
  rcases List.mem_map.mp ha with ⟨t, ht, rfl⟩
  have h1 : start + 1 ≤ t := (List.mem_range'_1.mp ht).1
  simp only [List.any_cons, List.any_nil, Bool.or_false, decide_eq_true_eq,
    Bool.not_eq_true', decide_eq_false_iff_not]
  intro hc
  omega

theorem backupsForBase_range (p : KnownPath) (b₀ : RawBytes) (start m : Nat) (s : FsState)
    (hbk : s.backups = (List.range' start m).map (fun t => ⟨p.baseName, t, b₀⟩)) :
    backupsForBase p.baseName s
      = ((List.range' start m).map (fun t => (⟨p.baseName, t, b₀⟩ : BackupFile))).reverse := by
  unfold backupsForBase
  rw [hbk, filter_base_range, sortStable_of_ascending _ (range_backups_pairwise start m _ b₀)]

theorem cleanup_range_lt (p : KnownPath) (b₀ : RawBytes) (start m : Nat) (s : FsState)
    (hm : m + 1 ≤ MAX_BACKUPS)
    (hbk : s.backups = (List.range' start (m+1)).map (fun t => ⟨p.baseName, t, b₀⟩)) :
    cleanupOldBackups p.baseName s = s := by
  have hlen : (backupsForBase p.baseName s).length = m + 1 := by
    rw [backupsForBase_range p b₀ start (m+1) s hbk]
    simp
  unfold cleanupOldBackups
  rw [if_neg (by rw [hlen]; omega)]

theorem cleanup_range_full (p : KnownPath) (b₀ : RawBytes) (start : Nat) (s : FsState)
    (hbk : s.backups
      = (List.range' start (MAX_BACKUPS+1)).map (fun t => ⟨p.baseName, t, b₀⟩))
    (hmt : s.backupMetas.map (fun mt => (mt.base, mt.stamp))
      = (List.range' start (MAX_BACKUPS+1)).map (fun t => (p.baseName, t))) :
    (cleanupOldBackups p.baseName s).backups
        = (List.range' (start+1) MAX_BACKUPS).map (fun t => ⟨p.baseName, t, b₀⟩) ∧
    (cleanupOldBackups p.baseName s).backupMetas.map (fun mt => (mt.base, mt.stamp))
        = (List.range' (start+1) MAX_BACKUPS).map (fun t => (p.baseName, t)) := by
  have hB := backupsForBase_range p b₀ start (MAX_BACKUPS+1) s hbk
  have hlen : (backupsForBase p.baseName s).length = MAX_BACKUPS + 1 := by
    rw [hB]; simp
  have hdel : (backupsForBase p.baseName s).drop MAX_BACKUPS
      = [(⟨p.baseName, start, b₀⟩ : BackupFile)] := by
    rw [hB, List.range'_succ, List.map_cons, List.reverse_cons]
    have hl : ((List.range' (start+1) MAX_BACKUPS).map
        (fun t => (⟨p.baseName, t, b₀⟩ : BackupFile))).reverse.length = MAX_BACKUPS := by
      simp
    nth_rewrite 1 [← hl]
    rw [List.drop_left]
  unfold cleanupOldBackups
  rw [if_pos (by rw [hlen]; omega)]
  rw [hdel]
  constructor
  · show (s.backups.filter (fun e =>
        ¬ ([(⟨p.baseName, start, b₀⟩ : BackupFile)]).any
            (fun d => d.base = e.base ∧ d.stamp = e.stamp)))
      = (List.range' (start+1) MAX_BACKUPS).map (fun t => ⟨p.baseName, t, b₀⟩)
    rw [hbk, List.range'_succ, List.map_cons]
    exact filter_drop_oldest start MAX_BACKUPS p.baseName b₀
  · show ((s.backupMetas.filter (fun mt =>
        ¬ ([(⟨p.baseName, start, b₀⟩ : BackupFile)]).any
            (fun d => d.base = mt.base ∧ d.stamp = mt.stamp))).map
          (fun mt => (mt.base, mt.stamp)))
      = (List.range' (start+1) MAX_BACKUPS).map (fun t => (p.baseName, t))
    have hcomm : ((s.backupMetas.filter (fun mt =>
        ¬ ([(⟨p.baseName, start, b₀⟩ : BackupFile)]).any
            (fun d => d.base = mt.base ∧ d.stamp = mt.stamp))).map
          (fun mt => (mt.base, mt.stamp)))
        = ((s.backupMetas.map (fun mt => (mt.base, mt.stamp))).filter
            (fun pr => ¬ ([(⟨p.baseName, start, b₀⟩ : BackupFile)]).any
              (fun d => d.base = pr.1 ∧ d.stamp = pr.2))) :=
      map_filter_tup (fun mt => (mt.base, mt.stamp))
        (fun pr => ¬ ([(⟨p.baseName, start, b₀⟩ : BackupFile)]).any
          (fun d => d.base = pr.1 ∧ d.stamp = pr.2)) s.backupMetas
    rw [hcomm, hmt, List.range'_succ, List.map_cons]
    exact filter_drop_oldest_pairs start MAX_BACKUPS p.baseName b₀

theorem retention_step_lt (p : KnownPath) (b₀ : RawBytes) (d : String)
    (s : FsState) (start m : Nat)
    (h : RetentionInv p b₀ start m s) (hlt : m < MAX_BACKUPS) :
    RetentionInv p b₀ start (m+1) (applyPrim s (.backupOp p d)) := by
  obtain ⟨hby, hclock, hmax, hbk, hmt⟩ := h
  rw [applyPrim_backupOp]
  unfold createBackup
  rw [hby]
  dsimp only
  rw [hclock, hbk, backups_range_concat p.baseName b₀ start m]
  have hcl := cleanup_range_lt p b₀ start m
    { s with
      backups := (List.range' start (m+1)).map (fun t => ⟨p.baseName, t, b₀⟩),
      backupMetas := s.backupMetas ++ [⟨p.baseName, start + m, p, start + m, d⟩],
      clock := start + m + 1 } (by omega) rfl
  rw [hcl]
  refine ⟨?_, ?_, by omega, rfl, ?_⟩
  · cases p <;> exact hby
  · show start + m + 1 = start + (m + 1)
    omega
  · show ((s.backupMetas
        ++ [(⟨p.baseName, start + m, p, start + m, d⟩ : BackupMeta)]).map
          (fun mt => (mt.base, mt.stamp)))
      = (List.range' start (m+1)).map (fun t => (p.baseName, t))
    rw [List.map_append, hmt]
    exact pairs_range_concat p.baseName start m

theorem retention_step_full (p : KnownPath) (b₀ : RawBytes) (d : String)
    (s : FsState) (start : Nat)
    (h : RetentionInv p b₀ start MAX_BACKUPS s) :
    RetentionInv p b₀ (start+1) MAX_BACKUPS (applyPrim s (.backupOp p d)) := by
  obtain ⟨hby, hclock, hmax, hbk, hmt⟩ := h
  rw [applyPrim_backupOp]
  unfold createBackup
  rw [hby]
  dsimp only
  rw [hclock, hbk, backups_range_concat p.baseName b₀ start MAX_BACKUPS]
  have hmt₂ : (({ s with
      backups := (List.range' start (MAX_BACKUPS+1)).map (fun t => ⟨p.baseName, t, b₀⟩),
      backupMetas := s.backupMetas
        ++ [⟨p.baseName, start + MAX_BACKUPS, p, start + MAX_BACKUPS, d⟩],
      clock := start + MAX_BACKUPS + 1 } : FsState)).backupMetas.map
        (fun mt => (mt.base, mt.stamp))
      = (List.range' start (MAX_BACKUPS+1)).map (fun t => (p.baseName, t)) := by
    show ((s.backupMetas
        ++ [(⟨p.baseName, start + MAX_BACKUPS, p, start + MAX_BACKUPS, d⟩ : BackupMeta)]).map
          (fun mt => (mt.base, mt.stamp)))
      = (List.range' start (MAX_BACKUPS+1)).map (fun t => (p.baseName, t))
    rw [List.map_append, hmt]
    exact pairs_range_concat p.baseName start MAX_BACKUPS
  have hfull := cleanup_range_full p b₀ start
    { s with
      backups := (List.range' start (MAX_BACKUPS+1)).map (fun t => ⟨p.baseName, t, b₀⟩),
      backupMetas := s.backupMetas
        ++ [⟨p.baseName, start + MAX_BACKUPS, p, start + MAX_BACKUPS, d⟩],
      clock := start + MAX_BACKUPS + 1 } rfl hmt₂
  refine ⟨?_, ?_, le_refl _, hfull.1, hfull.2⟩
  · rw [bytesAt_cleanup]
    cases p <;> exact hby
  · rw [cleanup_clock]
    show start + MAX_BACKUPS + 1 = (start + 1) + MAX_BACKUPS
    omega

theorem retention_iter (p : KnownPath) (b₀ : RawBytes) :
    ∀ (descs : List String) (s : FsState) (start m : Nat),
      RetentionInv p b₀ start m s →
      ∃ start' m', RetentionInv p b₀ start' m'
          (applyOps s (descs.map (fun dd => .backupOp p dd)))
        ∧ start' + m' = start + m + descs.length
        ∧ m' = min (m + descs.length) MAX_BACKUPS := by
  intro descs
  induction descs with
  | nil =>
    intro s start m h
    refine ⟨start, m, h, by simp, ?_⟩
    have h3 := h.2.2.1
    simp only [List.length_nil, Nat.add_zero]
    omega
  | cons d t ih =>
    intro s start m h
    by_cases hm : m = MAX_BACKUPS
    · subst hm
      obtain ⟨start', m', hinv, he, hmin⟩ :=
        ih (applyPrim s (.backupOp p d)) (start+1) MAX_BACKUPS
          (retention_step_full p b₀ d s start h)
      refine ⟨start', m', hinv, ?_, ?_⟩
      · simp only [List.length_cons]
        omega
      · simp only [List.length_cons]
        omega
    · have hlt : m < MAX_BACKUPS := lt_of_le_of_ne h.2.2.1 hm
      obtain ⟨start', m', hinv, he, hmin⟩ :=
        ih (applyPrim s (.backupOp p d)) start (m+1)
          (retention_step_lt p b₀ d s start m h hlt)
      refine ⟨start', m', hinv, ?_, ?_⟩
      · simp only [List.length_cons]
        omega
      · simp only [List.length_cons]
        omega

/-- **C9**: after `MAX_BACKUPS + 5` snapshot calls against the same file,
starting from an empty backups directory, exactly `MAX_BACKUPS` backup copies
and exactly `MAX_BACKUPS` metadata sidecars remain for that base file name,
and they are the `MAX_BACKUPS` most recently created of the `MAX_BACKUPS + 5`
(their timestamps are the top `MAX_BACKUPS` of the stamps handed out, i.e.
`clock + 5 … clock + 14`), with the clock advanced once per snapshot. -/
theorem backup_retention (s₀ : FsState) (p : KnownPath) (b₀ : RawBytes)
    (descs : List String)
    (h0 : s₀.backups = []) (h1 : s₀.backupMetas = [])
    (hby : bytesAt p s₀ = some b₀)
    (hlen : descs.length = MAX_BACKUPS + 5) :
    (applyOps s₀ (descs.map (fun dd => .backupOp p dd))).backups
        = (List.range' (s₀.clock + 5) MAX_BACKUPS).map
            (fun t => (⟨p.baseName, t, b₀⟩ : BackupFile))
    ∧ (applyOps s₀ (descs.map (fun dd => .backupOp p dd))).backups.length = MAX_BACKUPS
    ∧ (applyOps s₀ (descs.map (fun dd => .backupOp p dd))).backupMetas.map
          (fun mt => (mt.base, mt.stamp))
        = (List.range' (s₀.clock + 5) MAX_BACKUPS).map (fun t => (p.baseName, t))
    ∧ (applyOps s₀ (descs.map (fun dd => .backupOp p dd))).backupMetas.length = MAX_BACKUPS
    ∧ (applyOps s₀ (descs.map (fun dd => .backupOp p dd))).clock
        = s₀.clock + (MAX_BACKUPS + 5) := by
  have hinv0 : RetentionInv p b₀ s₀.clock 0 s₀ := by
    refine ⟨hby, by omega, Nat.zero_le _, ?_, ?_⟩
    · rw [h0]
      rfl
    · rw [h1]
      rfl
  obtain ⟨start', m', hinv, he, hmin⟩ := retention_iter p b₀ descs s₀ s₀.clock 0 hinv0
  rw [hlen] at he hmin
  have hm' : m' = MAX_BACKUPS := by omega
  have hs' : start' = s₀.clock + 5 := by omega
  subst hm'
  subst hs'
  obtain ⟨hb2, hc2, hm2, hbk2, hmt2⟩ := hinv
  refine ⟨hbk2, ?_, hmt2, ?_, ?_⟩
  · rw [hbk2]
    simp
  · have hlm := congrArg List.length hmt2
    simpa using hlm
  · rw [hc2]
    omega

theorem backup_retention_witness :
    fixSnapshotFs.backups = [] ∧
    fixSnapshotFs.backupMetas = [] ∧
    bytesAt .claudeJsonP fixSnapshotFs = some (.claudeDoc {}) ∧
    (List.replicate (MAX_BACKUPS + 5) "snap").length = MAX_BACKUPS + 5 ∧
    (applyOps fixSnapshotFs ((List.replicate (MAX_BACKUPS + 5) "snap").map
        (fun dd => PrimOp.backupOp .claudeJsonP dd))).backups.length = MAX_BACKUPS :=
  ⟨rfl, rfl, rfl, rfl,
    (backup_retention fixSnapshotFs .claudeJsonP (.claudeDoc {})
        (List.replicate (MAX_BACKUPS + 5) "snap") rfl rfl rfl rfl).2.1⟩
